import Mathlib

/-!
Verification development for the `algebra2` repository: a hash-consed term
DAG (`TreeAlgebra`), its generic fixpoint evaluator, the floating-point
interpretation (`DoubleAlgebra`), and the alpha-equivalence algorithm.

The C++ sources are shallowly embedded:

* `D` models IEEE-754 binary64 values (`double`).  A value is either a
  finite number (represented exactly by a rational), the negative zero,
  a NaN with a payload distinguishing different bit patterns, or one of
  the two infinities.  Finite arithmetic is modelled exactly (no rounding,
  no overflow); every concrete computation appearing in this development
  stays within small integers and halves, where binary64 arithmetic is
  exact, and the propositions proved do not depend on rounding.  The sign
  of a zero produced by `subD`/`addD`/`mulD`/`divD` follows IEEE-754;
  NaN payload propagation takes the payload of the left NaN operand
  (the C++ behaviour is implementation-defined and no theorem depends
  on payload propagation).
* `Node`/`Builder` model `Tree` and the interning state of `TreeAlgebra`
  (`fTrees`, `fVarCounter`, and the per-`Var` `fDefinition` cells, stored
  as a table `defs` indexed by node identity).  Pointer identity of
  `std::shared_ptr<Tree>` is modelled by the allocation index `ℕ` of the
  node in the interning table, so "same reference" is equality of indices.
  `std::unordered_set::find` with `TreeHash`/`TreeEqual` returns an element
  `TreeEqual` to the candidate whenever one is present (the specified hash
  is consistent with the equality), which `firstIdx` realises.
* The evaluator (`evalI`, `evalNodeD`, `evalVarD`, `fixpointD`, `iterLoop`,
  `iterStep`, `evalDefs`) embeds `TreeAlgebra::evalInternal`, `evalVar`,
  `fixpoint` and `iterate` specialised to `DoubleAlgebra` (the
  `dynamic_cast` dispatch resolved to the `SemanticAlgebra` branch).
  The recursion carries explicit fuel; exhaustion is the distinguished
  outcome `EvErr.fuelOut`, distinct from every error the C++ code raises,
  so an `.ok` or `.error noConvergence` result is unambiguous.
* The alpha-equivalence functions (`aem`, `aec`, `ahv`) embed
  `alphaEquivMemo`, `alphaEquivCore` and `handleVarsDAG`; the context
  additionally accumulates a ghost `trace` of how each visited pair was
  resolved (pointer shortcut, memo hit, memo miss); nothing reads the
  trace, so it does not influence results or states.
-/

namespace Algebra2

/-! ## The binary64 value model -/

/-- Exact fraction with a positive denominator: the numerator `n` over
`dm + 1`.  Every finite double is such a fraction.  Unlike Mathlib's
`ℚ` (whose arithmetic normalises through `Nat.gcd` and does not reduce
in the kernel), these fractions compute by plain integer arithmetic, so
concrete runs of the embedded evaluator can be checked by `decide`.
Equality of the denoted rationals is `qeqB` (cross-multiplication), not
structural equality; `toRat` maps a fraction to the `ℚ` it denotes and
is used only inside proofs. -/
structure Q where
  n : ℤ
  dm : ℕ

deriving DecidableEq

/-- Denominator of a fraction (always positive). -/
def Q.den (q : Q) : ℤ := (q.dm : ℤ) + 1

/-- The integer `k` as a fraction. -/
def Q.ofInt (k : ℤ) : Q := ⟨k, 0⟩

/-- The rational a fraction denotes (proof-side only). -/
def toRat (q : Q) : ℚ := (q.n : ℚ) / ((q.dm : ℚ) + 1)

/-- Exact fraction addition. -/
def qadd (a b : Q) : Q := ⟨a.n * b.den + b.n * a.den, (a.dm + 1) * (b.dm + 1) - 1⟩

/-- Exact fraction subtraction. -/
def qsub (a b : Q) : Q := ⟨a.n * b.den - b.n * a.den, (a.dm + 1) * (b.dm + 1) - 1⟩

/-- Exact fraction multiplication. -/
def qmul (a b : Q) : Q := ⟨a.n * b.n, (a.dm + 1) * (b.dm + 1) - 1⟩

/-- Exact fraction division (the denominator sign is folded into the
numerator; meaningful only for a nonzero divisor, and the evaluator
guards every division by a zero test as the C++ semantics requires). -/
def qdiv (a b : Q) : Q :=
  if b.n < 0 then ⟨-(a.n * b.den), (a.dm + 1) * b.n.natAbs - 1⟩
  else ⟨a.n * b.den, (a.dm + 1) * b.n.natAbs - 1⟩

/-- Absolute value of a fraction. -/
def qabs (a : Q) : Q := ⟨|a.n|, a.dm⟩

/-- Comparison of denoted rationals (cross-multiplication; sound since
denominators are positive). -/
def qlt (a b : Q) : Bool := decide (a.n * b.den < b.n * a.den)

/-- Equality of denoted rationals. -/
def qeqB (a b : Q) : Bool := decide (a.n * b.den = b.n * a.den)

/-- Test for the denoted rational zero. -/
def qIsZero (a : Q) : Bool := decide (a.n = 0)

/-- Sign test: the denoted rational is negative. -/
def qneg (a : Q) : Bool := decide (a.n < 0)

/-- Truncation toward zero of a fraction (used by `fmod`). -/
def qtrunc (a : Q) : ℤ := a.n.tdiv a.den

/-- Model of a C++ `double` (IEEE-754 binary64) bit pattern: a nonzero
finite value or positive zero (`fin q`, exact fraction), negative zero,
a NaN with a payload identifying its bit pattern, or an infinity. -/
inductive D where
  | fin (q : Q)
  | negZero
  | nan (payload : ℕ)
  | inf
  | negInf

deriving DecidableEq

/-- Extended-real view used for IEEE comparisons: NaN has no view. -/
inductive Ext where
  | ninf
  | val (q : Q)
  | pinf

deriving DecidableEq

/-- Comparison of extended reals. -/
def Ext.blt : Ext → Ext → Bool
  | .ninf, .ninf => false
  | .ninf, _ => true
  | _, .ninf => false
  | .pinf, _ => false
  | .val _, .pinf => true
  | .val a, .val b => qlt a b

/-- Equality of extended reals (by denoted value on fractions). -/
def Ext.beq : Ext → Ext → Bool
  | .ninf, .ninf => true
  | .pinf, .pinf => true
  | .val a, .val b => qeqB a b
  | _, _ => false

/-- View of a double as an extended real (`none` for NaN). -/
def D.ext? : D → Option Ext
  | .fin q => some (.val q)
  | .negZero => some (.val (Q.ofInt 0))
  | .nan _ => none
  | .inf => some .pinf
  | .negInf => some .ninf

/-- IEEE `<` on doubles: false whenever an operand is NaN. -/
def D.blt (a b : D) : Bool :=
  match a.ext?, b.ext? with
  | some x, some y => x.blt y
  | _, _ => false

/-- IEEE `==` on doubles: false whenever an operand is NaN;
`-0.0 == +0.0` holds. -/
def deq (a b : D) : Bool :=
  match a.ext?, b.ext? with
  | some x, some y => x.beq y
  | _, _ => false

/-- Fraction value of a finite double (junk on non-finite inputs,
used only under patterns that exclude them). -/
def D.finQ : D → Q
  | .fin q => q
  | _ => Q.ofInt 0

/-- The double is the positive zero. -/
def D.isPosZero : D → Bool
  | .fin q => qIsZero q
  | _ => false

/-- Sign bit of a double (true = negative); NaN sign unused. -/
def D.sgn : D → Bool
  | .fin q => qneg q
  | .negZero => true
  | .nan _ => false
  | .inf => false
  | .negInf => true

/-- IEEE addition (finite arithmetic exact; zero signs per IEEE). -/
def addD : D → D → D
  | .nan p, _ => .nan p
  | _, .nan p => .nan p
  | .inf, .negInf => .nan 0
  | .negInf, .inf => .nan 0
  | .inf, _ => .inf
  | _, .inf => .inf
  | .negInf, _ => .negInf
  | _, .negInf => .negInf
  | a, b =>
    let r := qadd a.finQ b.finQ
    if qIsZero r then (if a = .negZero ∧ b = .negZero then .negZero else .fin (Q.ofInt 0))
    else .fin r

/-- IEEE subtraction (finite arithmetic exact; zero signs per IEEE). -/
def subD : D → D → D
  | .nan p, _ => .nan p
  | _, .nan p => .nan p
  | .inf, .inf => .nan 0
  | .negInf, .negInf => .nan 0
  | .inf, _ => .inf
  | .negInf, _ => .negInf
  | _, .inf => .negInf
  | _, .negInf => .inf
  | a, b =>
    let r := qsub a.finQ b.finQ
    if qIsZero r then (if a = .negZero ∧ b.isPosZero then .negZero else .fin (Q.ofInt 0))
    else .fin r

/-- IEEE multiplication (finite arithmetic exact, no overflow modelled). -/
def mulD : D → D → D
  | .nan p, _ => .nan p
  | _, .nan p => .nan p
  | a, b =>
    match a.ext?, b.ext? with
    | some .pinf, some (.val q) =>
      if qIsZero q then .nan 0 else if b.sgn then .negInf else .inf
    | some .ninf, some (.val q) =>
      if qIsZero q then .nan 0 else if b.sgn then .inf else .negInf
    | some (.val q), some .pinf =>
      if qIsZero q then .nan 0 else if a.sgn then .negInf else .inf
    | some (.val q), some .ninf =>
      if qIsZero q then .nan 0 else if a.sgn then .inf else .negInf
    | some .pinf, some .pinf => .inf
    | some .ninf, some .ninf => .inf
    | some .pinf, some .ninf => .negInf
    | some .ninf, some .pinf => .negInf
    | _, _ =>
      let r := qmul a.finQ b.finQ
      if qIsZero r then (if a.sgn ≠ b.sgn then .negZero else .fin (Q.ofInt 0)) else .fin r

/-- IEEE division (finite arithmetic exact; `x/0` signed infinity,
`0/0` NaN, `inf/inf` NaN). -/
def divD : D → D → D
  | .nan p, _ => .nan p
  | _, .nan p => .nan p
  | a, b =>
    match a.ext?, b.ext? with
    | some .pinf, some .pinf => .nan 0
    | some .pinf, some .ninf => .nan 0
    | some .ninf, some .pinf => .nan 0
    | some .ninf, some .ninf => .nan 0
    | some .pinf, some (.val _) => if b.sgn then .negInf else .inf
    | some .ninf, some (.val _) => if b.sgn then .inf else .negInf
    | some (.val _), some .pinf => if a.sgn then .negZero else .fin (Q.ofInt 0)
    | some (.val _), some .ninf => if a.sgn then .fin (Q.ofInt 0) else .negZero
    | _, _ =>
      if qIsZero b.finQ then
        (if qIsZero a.finQ then .nan 0
         else if a.sgn ≠ b.sgn then .negInf else .inf)
      else
        let r := qdiv a.finQ b.finQ
        if qIsZero r then (if a.sgn ≠ b.sgn then .negZero else .fin (Q.ofInt 0)) else .fin r

/-- IEEE `std::fmod` (finite arithmetic exact; zero result keeps the
dividend's sign). -/
def modD : D → D → D
  | .nan p, _ => .nan p
  | _, .nan p => .nan p
  | .inf, _ => .nan 0
  | .negInf, _ => .nan 0
  | a, .inf => a
  | a, .negInf => a
  | a, b =>
    if qIsZero b.finQ then .nan 0
    else
      let r := qsub a.finQ (qmul b.finQ (Q.ofInt (qtrunc (qdiv a.finQ b.finQ))))
      if qIsZero r then (if a.sgn then .negZero else .fin (Q.ofInt 0)) else .fin r

/-- IEEE `std::abs` on doubles. -/
def absD : D → D
  | .fin q => .fin (qabs q)
  | .negZero => .fin (Q.ofInt 0)
  | .nan p => .nan p
  | .inf => .inf
  | .negInf => .inf

/-- Convergence tolerance of `DoubleAlgebra::isConverged` (`1e-10`). -/
def epsD : Q := ⟨1, 9999999999⟩

/-- Embedding of `DoubleAlgebra::isConverged`: absolute tolerance near
zero, else relative tolerance (`std::max(a, b)` is `(a < b) ? b : a`). -/
def isConverged (prev current : D) : Bool :=
  let adiff := absD (subD prev current)
  if adiff.blt (.fin epsD) then true
  else
    let maxv := if (absD prev).blt (absD current) then absD current else absD prev
    if (D.fin (Q.ofInt 0)).blt maxv && (divD adiff maxv).blt (.fin epsD) then true
    else false

/-! ## Rational-valued views used in the `isConverged` proofs -/

/-- A double that denotes the finite rational `x` (positive zero and
negative zero both denote `0`). -/
def IsFinD (a : D) (x : ℚ) : Prop :=
  (∃ q, a = .fin q ∧ toRat q = x) ∨ (a = .negZero ∧ x = 0)

/-- Tolerance `1e-10` as a rational (proof side). -/
def epsQ : ℚ := 1 / 10000000000

/-- Value of `isConverged` on finite doubles, expressed over the denoted
rationals. -/
def convQ (x y : ℚ) : Bool :=
  if |x - y| < epsQ then true
  else if 0 < max |x| |y| ∧ |x - y| / max |x| |y| < epsQ then true
  else false

/-! ## The term DAG and the interning builder -/

/-- Unary operators of the fixed signature (`UnaryOp`). -/
inductive Uop where
  | abs

deriving DecidableEq

/-- Binary operators of the fixed signature (`BinaryOp`). -/
inductive Bop where
  | add | sub | mul | div | mod

deriving DecidableEq

/-- Embedding of `Tree`: an immutable node of the term DAG.  References
to children are the allocation indices of the referenced nodes in the
interning table (pointer identity). -/
inductive Node where
  | num (v : D)
  | unary (op : Uop) (child : ℕ)
  | binary (op : Bop) (l r : ℕ)
  | var (idx : ℤ)

deriving DecidableEq

/-- Embedding of the `TreeEqual` functor: `Num` compares values with the
C++ `==` on `double` (hence IEEE equality `deq`), `Unary`/`Binary` compare
the operator and the reference identity of the children, `Var` compares
only the index.  Definitions are not compared. -/
def treeEqual : Node → Node → Bool
  | .num a, .num b => deq a b
  | .unary o1 c1, .unary o2 c2 => decide (o1 = o2) && decide (c1 = c2)
  | .binary o1 l1 r1, .binary o2 l2 r2 =>
      decide (o1 = o2) && decide (l1 = l2) && decide (r1 = r2)
  | .var i1, .var i2 => decide (i1 = i2)
  | _, _ => false

/-- Embedding of the state of a `TreeAlgebra` builder: the interning
table `fTrees` (as the list of nodes in allocation order), the
per-node `fDefinition` cells (only ever set on `Var` nodes), and
`fVarCounter`. -/
structure Builder where
  nodes : List Node
  defs : List (Option ℕ)
  varCounter : ℤ

deriving DecidableEq

/-- A freshly constructed `TreeAlgebra` (empty table, counter 0). -/
def emptyBuilder : Builder := ⟨[], [], 0⟩

/-- Index of the first element of the list satisfying `p`.  This models
`std::unordered_set::find` with `TreeHash`/`TreeEqual`: the specified
hash agrees on `TreeEqual`-equal nodes, so `find` returns an equal
element exactly when one is present. -/
def firstIdx (p : Node → Bool) : List Node → Option ℕ
  | [] => none
  | n :: rest => if p n then some 0 else (firstIdx p rest).map (· + 1)

/-- Embedding of `TreeAlgebra::intern`: return the existing equal node
or append the candidate (with an unset definition cell). -/
def intern (b : Builder) (cand : Node) : ℕ × Builder :=
  match firstIdx (fun n => treeEqual n cand) b.nodes with
  | some j => (j, b)
  | none => (b.nodes.length, ⟨b.nodes ++ [cand], b.defs ++ [none], b.varCounter⟩)

/-- Embedding of `TreeAlgebra::num`. -/
def numB (b : Builder) (d : D) : ℕ × Builder := intern b (.num d)

/-- Embedding of `TreeAlgebra::abs` (the only unary builder). -/
def unB (b : Builder) (op : Uop) (x : ℕ) : ℕ × Builder := intern b (.unary op x)

/-- Embedding of `TreeAlgebra::add`/`sub`/`mul`/`div`/`mod`, which all
construct a binary candidate and intern it. -/
def binB (b : Builder) (op : Bop) (x y : ℕ) : ℕ × Builder := intern b (.binary op x y)

/-- Embedding of `TreeAlgebra::var()`: pre-increment the counter, then
intern a `Var` candidate carrying the new counter value. -/
def varFreshB (b : Builder) : ℕ × Builder :=
  let c := b.varCounter + 1
  intern ⟨b.nodes, b.defs, c⟩ (.var c)

/-- Embedding of `TreeAlgebra::var(int)`: intern a `Var` with the given
index, leaving the counter untouched. -/
def varIdxB (b : Builder) (i : ℤ) : ℕ × Builder := intern b (.var i)

/-- Failure kinds of the builder and of evaluation.  `fuelOut` is an
artefact of the fueled embedding and corresponds to no C++ behaviour. -/
inductive EvErr where
  | notAVariable
  | unbound (i : ℤ)
  | noConvergence
  | unknownNode
  | fuelOut

deriving DecidableEq

deriving instance DecidableEq for Except

/-- Embedding of `TreeAlgebra::define`: requires the first argument to
be a `Var` (else throws before any mutation), writes the definition
cell, and returns the variable itself. -/
def defineB (b : Builder) (v d : ℕ) : Except EvErr (ℕ × Builder) :=
  match b.nodes.get? v with
  | some (.var _) => .ok (v, ⟨b.nodes, b.defs.set v (some d), b.varCounter⟩)
  | _ => .error .notAVariable

/-- Definition cell of node `v` (models `Tree::getDefinition`). -/
def defOf (b : Builder) (v : ℕ) : Option ℕ := (b.defs.get? v).join

/-- Children of non-`Var` nodes point strictly below the node's own
index: children exist before their parent is interned. -/
def nodeChildLt : Node → ℕ → Prop
  | .num _, _ => True
  | .unary _ c, i => c < i
  | .binary _ l r, i => l < i ∧ r < i
  | .var _, _ => True

/-- Well-formedness of a builder state: the definition table matches the
node table, distinct interned nodes are never `TreeEqual`, children
precede parents, and definition cells point into the table. -/
structure WFB (b : Builder) : Prop where
  len_defs : b.defs.length = b.nodes.length
  pairwise : ∀ i j ni nj, i ≠ j → b.nodes.get? i = some ni → b.nodes.get? j = some nj →
    treeEqual ni nj = false
  childLt : ∀ i n, b.nodes.get? i = some n → nodeChildLt n i
  defLt : ∀ i d, defOf b i = some d → d < b.nodes.length

/-- Builder states reachable through the public `TreeAlgebra` API. -/
inductive Good : Builder → Prop where
  | empty : Good emptyBuilder
  | num {b : Builder} (d : D) : Good b → Good (numB b d).2
  | unary {b : Builder} (op : Uop) {x : ℕ} : Good b → x < b.nodes.length →
      Good (unB b op x).2
  | binary {b : Builder} (op : Bop) {x y : ℕ} : Good b → x < b.nodes.length →
      y < b.nodes.length → Good (binB b op x y).2
  | varFresh {b : Builder} : Good b → Good (varFreshB b).2
  | varIdx {b : Builder} (i : ℤ) : Good b → Good (varIdxB b i).2
  | dfn {b : Builder} {v d : ℕ} {i : ℤ} : Good b → b.nodes.get? v = some (.var i) →
      d < b.nodes.length → Good ⟨b.nodes, b.defs.set v (some d), b.varCounter⟩

/-- A `Num` node holding a NaN constant. -/
def isNanNum : Node → Bool
  | .num (.nan _) => true
  | _ => false

/-- Concrete builder used by witnesses: `var(1)` defined as `num(42.0)`
(node 0 is the variable, node 1 its body, the counter untouched at 0). -/
def bW : Builder := ⟨[.var 1, .num (.fin (Q.ofInt 42))], [some 1, none], 0⟩

/-! ## Evaluation state: memo tables, SCC frames, hypotheses -/

/-- Lookup in an association list (models `std::map::find`). -/
def alook {κ α : Type} [DecidableEq κ] (m : List (κ × α)) (k : κ) : Option α :=
  (m.find? fun p => decide (p.1 = k)).map (·.2)

/-- Insert-or-replace in an association list (models `map[k] = v`). -/
def ains {κ α : Type} [DecidableEq κ] (m : List (κ × α)) (k : κ) (v : α) : List (κ × α) :=
  if (m.find? fun p => decide (p.1 = k)).isSome then
    m.map fun p => if p.1 = k then (k, v) else p
  else m ++ [(k, v)]

/-- Insert-if-absent in an association list (models `std::map::insert`,
which keeps the existing entry on a duplicate key). -/
def ainsKeep {κ α : Type} [DecidableEq κ] (m : List (κ × α)) (k : κ) (v : α) : List (κ × α) :=
  if (m.find? fun p => decide (p.1 = k)).isSome then m else m ++ [(k, v)]

/-- Sorted insertion without duplicates (models `std::set<Tree*>::insert`;
node identities are ordered by allocation index). -/
def sins (k : ℕ) : List ℕ → List ℕ
  | [] => [k]
  | a :: rest =>
    if k < a then k :: a :: rest
    else if k = a then a :: rest
    else a :: sins k rest

/-- Union of two sorted sets. -/
def sunion (s t : List ℕ) : List ℕ := t.foldl (fun acc k => sins k acc) s

/-- Embedding of `SCCFrame<T>`: the variables of the SCC (`scc`, a
sorted set of node identities) and the hypothetical memo of the frame. -/
structure Frame where
  scc : List ℕ
  memo : List (ℕ × D)

deriving DecidableEq

/-- Embedding of the per-call evaluation context: `definitiveMemo`, the
`Hypotheses` SCC stack (index 0 is the bottom of the stack, the last
element is the top) and `hypotheticalValues`. -/
structure EvalSt where
  defin : List (ℕ × D)
  stack : List Frame
  hyp : List (ℕ × D)

deriving DecidableEq

/-- Fresh evaluation context of a top-level `eval` call. -/
def initSt : EvalSt := ⟨[], [], []⟩

/-- Top frame of the SCC stack (`sccStack.back()`), if any. -/
def topFrame? (st : EvalSt) : Option Frame := st.stack.getLast?

/-- Members of the top frame (`sccStack.back().scc`); `[]` when empty
(the C++ never calls `back()` on an empty stack). -/
def topScc (st : EvalSt) : List ℕ := (st.stack.getLast?).elim [] Frame.scc

/-- Apply a function to the top frame, if any. -/
def updateTop (f : Frame → Frame) (st : EvalSt) : EvalSt :=
  match st.stack.getLast? with
  | none => st
  | some t => { st with stack := st.stack.dropLast ++ [f t] }

/-- Embedding of `Hypotheses::findSCCPosition`: position (from the
bottom) of the first frame whose SCC contains `v`. -/
def findSCCPos (st : EvalSt) (v : ℕ) : Option ℕ :=
  (List.range st.stack.length).find? fun i =>
    (st.stack.get? i).elim false fun f => f.scc.contains v

/-- Embedding of `TreeAlgebra::merge`: collapse frames `p..top` into one
frame whose SCC is the union of the members and whose memo merges the
frames' memos bottom-to-top, keeping the first entry on duplicate keys
(`std::map::insert` semantics). -/
def mergeFrames (p : ℕ) (st : EvalSt) : EvalSt :=
  if p ≥ st.stack.length then st
  else
    let rest := st.stack.drop p
    let mscc := rest.foldl (fun acc f => sunion acc f.scc) []
    let mmemo := rest.foldl (fun acc f => f.memo.foldl (fun m e => ainsKeep m e.1 e.2) acc) []
    { st with stack := st.stack.take p ++ [⟨mscc, mmemo⟩] }

/-- Embedding of `TreeAlgebra::memoize`: no dependencies go to the
definitive memo, otherwise to the top frame's hypothetical memo (if a
frame exists). -/
def memoizeV (n : ℕ) (v : D) (deps : List ℕ) (st : EvalSt) : EvalSt :=
  if deps.isEmpty then { st with defin := ains st.defin n v }
  else if st.stack.isEmpty then st
  else updateTop (fun t => { t with memo := ains t.memo n v }) st

/-- Embedding of `TreeAlgebra::promote`: move the top frame's memo into
the definitive memo, then the current values of the frame's variables,
and pop the frame. -/
def promoteSt (st : EvalSt) : EvalSt :=
  match st.stack.getLast? with
  | none => st
  | some t =>
    let d1 := t.memo.foldl (fun dm e => ains dm e.1 e.2) st.defin
    let d2 := t.scc.foldl (fun dm v =>
      match alook st.hyp v with
      | some val => ains dm v val
      | none => dm) d1
    { st with defin := d2, stack := st.stack.dropLast }

/-- Embedding of `TreeAlgebra::clean`: retain only the top frame's memo
entries whose key is a member of the frame's SCC. -/
def cleanSt (st : EvalSt) : EvalSt :=
  updateTop (fun t => { t with memo := t.memo.filter fun e => t.scc.contains e.1 }) st

/-- `DoubleAlgebra`'s unary dispatch (only `Abs`). -/
def applyUnD : Uop → D → D
  | .abs, v => absD v

/-- `DoubleAlgebra`'s binary dispatch table. -/
def applyBinD : Bop → D → D → D
  | .add, a, b => addD a b
  | .sub, a, b => subD a b
  | .mul, a, b => mulD a b
  | .div, a, b => divD a b
  | .mod, a, b => modD a b

/-- Variable index stored at node `v` (0 if `v` is not a variable; used
only to fill the `Unbound` error payload, as the C++ does with
`getVarIndex`). -/
def varIdxAt (b : Builder) (v : ℕ) : ℤ :=
  match b.nodes.get? v with
  | some (.var i) => i
  | _ => 0

mutual

/-- Embedding of `TreeAlgebra::evalInternal` specialised to
`DoubleAlgebra`: definitive memo first, then the top frame's
hypothetical memo (with the frame's SCC as dependency set), then
dispatch on the node. -/
def evalI : ℕ → Builder → ℕ → EvalSt → Except EvErr (D × List ℕ × EvalSt)
  | 0, _, _, _ => .error .fuelOut
  | f + 1, b, n, st =>
    match alook st.defin n with
    | some v => .ok (v, [], st)
    | none =>
      match st.stack.getLast? with
      | some t =>
        match alook t.memo n with
        | some v => .ok (v, t.scc, st)
        | none => evalNodeD f b n st
      | none => evalNodeD f b n st
termination_by structural fuel _ _ _ => fuel

/-- Dispatch of `evalInternal` on the node's shape: `Num` via the
interpretation's `num` (the identity on doubles), `Unary`/`Binary`
evaluate children left-to-right, combine dependency sets, and memoize;
`Var` defers to the variable routine. -/
def evalNodeD : ℕ → Builder → ℕ → EvalSt → Except EvErr (D × List ℕ × EvalSt)
  | 0, _, _, _ => .error .fuelOut
  | f + 1, b, n, st =>
    match b.nodes.get? n with
    | some (.num d) => .ok (d, [], memoizeV n d [] st)
    | some (.unary op c) =>
      match evalI f b c st with
      | .error e => .error e
      | .ok (cv, cd, st1) =>
        let v := applyUnD op cv
        .ok (v, cd, memoizeV n v cd st1)
    | some (.binary op l r) =>
      match evalI f b l st with
      | .error e => .error e
      | .ok (lv, ld, st1) =>
        match evalI f b r st1 with
        | .error e => .error e
        | .ok (rv, rd, st2) =>
          let v := applyBinD op lv rv
          let ds := sunion ld rd
          .ok (v, ds, memoizeV n v ds st2)
    | some (.var i) => evalVarD f b n i st
    | none => .error .unknownNode
termination_by structural fuel _ _ _ => fuel

/-- Embedding of `TreeAlgebra::evalVar` specialised to `DoubleAlgebra`:
on a back-edge merge the frames and return the current approximation
(seeding `bottom() = 0.0` when absent); otherwise push a singleton
frame, seed the approximation with bottom, evaluate the definition,
and either promote directly (no dependencies), run the fixpoint (the
frame is still the pushed singleton), or — after a merge — hand the
larger SCC back to the enclosing call. -/
def evalVarD : ℕ → Builder → ℕ → ℤ → EvalSt → Except EvErr (D × List ℕ × EvalSt)
  | 0, _, _, _, _ => .error .fuelOut
  | f + 1, b, v, idx, st =>
    match findSCCPos st v with
    | some p =>
      let st1 := mergeFrames p st
      match alook st1.hyp v with
      | some val => .ok (val, topScc st1, st1)
      | none =>
        let st2 := { st1 with hyp := ains st1.hyp v (.fin (Q.ofInt 0)) }
        .ok (.fin (Q.ofInt 0), topScc st2, st2)
    | none =>
      let st1 := { st with stack := st.stack ++ [(⟨[v], []⟩ : Frame)] }
      let st2 := { st1 with hyp := ains st1.hyp v (.fin (Q.ofInt 0)) }
      match defOf b v with
      | none => .error (.unbound idx)
      | some d =>
        match evalI f b d st2 with
        | .error e => .error e
        | .ok (val, deps, st3) =>
          let st4 := { st3 with hyp := ains st3.hyp v val }
          if (st4.stack.getLast?).elim false (fun t => t.scc = [v]) then
            if deps.isEmpty then
              let st5 := { st4 with defin := ains st4.defin v val }
              .ok (val, [], { st5 with stack := st5.stack.dropLast })
            else fixpointD f [v] b st4
          else .ok (val, topScc st4, st4)
termination_by structural fuel _ _ _ _ => fuel

/-- Embedding of `TreeAlgebra::fixpoint`: clean the top frame once,
iterate to convergence, then promote and return the representative's
value; `NoConvergence` when the iteration bound is exhausted. -/
def fixpointD : ℕ → List ℕ → Builder → EvalSt → Except EvErr (D × List ℕ × EvalSt)
  | 0, _, _, _ => .error .fuelOut
  | f + 1, scc, b, st =>
    let st1 := cleanSt st
    match iterLoop f 10000 scc b st1 with
    | .error e => .error e
    | .ok (false, _) => .error .noConvergence
    | .ok (true, st2) =>
      let st3 := promoteSt st2
      match scc.head? with
      | some rep =>
        match alook st3.defin rep with
        | some val => .ok (val, [], st3)
        | none => .ok (.fin (Q.ofInt 0), [], st3)
      | none => .ok (.fin (Q.ofInt 0), [], st3)
termination_by structural fuel _ _ _ => fuel

/-- Embedding of the `MAX_ITER`-bounded loop of `TreeAlgebra::iterate`;
the second argument is the remaining iteration budget (10000 at entry). -/
def iterLoop : ℕ → ℕ → List ℕ → Builder → EvalSt → Except EvErr (Bool × EvalSt)
  | 0, _, _, _, _ => .error .fuelOut
  | _ + 1, 0, _, _, st => .ok (false, st)
  | f + 1, rem + 1, scc, b, st =>
    match iterStep f scc b st with
    | .error e => .error e
    | .ok (st1, true) => .ok (true, st1)
    | .ok (st1, false) => iterLoop f rem scc b st1
termination_by structural fuel _ _ _ _ => fuel

/-- One iteration of `TreeAlgebra::iterate`: snapshot the previous
values, re-evaluate every member's definition, install the new values,
and report whether every member passed `isConverged`. -/
def iterStep : ℕ → List ℕ → Builder → EvalSt → Except EvErr (EvalSt × Bool)
  | 0, _, _, _ => .error .fuelOut
  | f + 1, scc, b, st =>
    let prev := scc.filterMap fun v => (alook st.hyp v).map fun x => (v, x)
    match evalDefs f scc b st [] with
    | .error e => .error e
    | .ok (newVals, st1) =>
      let st2 := newVals.foldl (fun s e => { s with hyp := ains s.hyp e.1 e.2 }) st1
      let conv := scc.all fun v =>
        match alook prev v, alook newVals v with
        | some pv, some nv => isConverged pv nv
        | _, _ => false
      .ok (st2, conv)
termination_by structural fuel _ _ _ => fuel

/-- The inner loop of one iteration: evaluate each member's definition
in SCC order, threading the evaluation state. -/
def evalDefs : ℕ → List ℕ → Builder → EvalSt → List (ℕ × D) →
    Except EvErr (List (ℕ × D) × EvalSt)
  | 0, _, _, _, _ => .error .fuelOut
  | _ + 1, [], _, st, acc => .ok (acc, st)
  | f + 1, v :: rest, b, st, acc =>
    match defOf b v with
    | none => .error (.unbound (varIdxAt b v))
    | some d =>
      match evalI f b d st with
      | .error e => .error e
      | .ok (val, _, st1) => evalDefs f rest b st1 (acc ++ [(v, val)])
termination_by structural fuel _ _ _ _ => fuel

end

/-- Fuel used for concrete runs; large enough that no computation in
this development comes close to exhausting it (the deepest run below
uses recursion depth under 40).  Exhaustion would surface as the
distinguished `fuelOut`, never as a C++ behaviour. -/
def evalFuelN : ℕ := 64

/-- Embedding of the public `TreeAlgebra::eval` for a `SemanticAlgebra`
(`evalSemantic` with `DoubleAlgebra`): run `evalInternal` on a fresh
per-call context and return the value. -/
def evalSemD (b : Builder) (root : ℕ) : Except EvErr D :=
  match evalI evalFuelN b root initSt with
  | .ok (v, _, _) => .ok v
  | .error e => .error e

/-! ## The fresh-var cycle `v := add(v, num 1)` under `DoubleAlgebra` -/

/-- The builder after `v := var(); define(v, add(v, num 1))`: the
fresh-var cycle of the claims.  Node 0 is the variable (index 1),
node 1 is `num 1`, node 2 is `add(v, num 1)`, and node 0's definition
cell points at node 2. -/
def bX : Builder :=
  let v := varFreshB emptyBuilder
  let one := numB v.2 (D.fin (Q.ofInt 1))
  let a := binB one.2 .add v.1 one.1
  match defineB a.2 v.1 a.1 with
  | .ok (_, s) => s
  | .error _ => a.2

/-- The evaluation state just after `evalVar` pushes the singleton frame
for node 0 and seeds its approximation with `bottom() = 0.0`, starting
from the fresh context of `eval(v, DoubleAlgebra)` — the state from
which the definition's discovery pass runs. -/
def stXpush : EvalSt := ⟨[], [⟨[0], []⟩], [(0, D.fin (Q.ofInt 0))]⟩

/-- Result of the discovery pass: `evalInternal` on the definition
(node 2) from `stXpush`. -/
def discX : Except EvErr (D × List ℕ × EvalSt) := evalI evalFuelN bX 2 stXpush

/-- State after the discovery pass, with the variable's approximation
updated to the discovered value (`hypotheticalValues[v] = value`). -/
def stXdisc : EvalSt :=
  match discX with
  | .ok (val, _, st) => { st with hyp := ains st.hyp 0 val }
  | .error _ => stXpush

/-- State at entry of `iterate`: `fixpoint` has cleaned the top frame. -/
def stXclean : EvalSt := cleanSt stXdisc

/-- First iteration of `iterate` on the SCC `{v}`. -/
def iterX1 : Except EvErr (EvalSt × Bool) := iterStep evalFuelN [0] bX stXclean

/-- State after the first iteration. -/
def stX1 : EvalSt :=
  match iterX1 with
  | .ok (st, _) => st
  | .error _ => stXclean

/-- Second iteration of `iterate`, starting from the first iteration's
state. -/
def iterX2 : Except EvErr (EvalSt × Bool) := iterStep evalFuelN [0] bX stX1

/-- Ghost helper for a counterfactual: drop one key from the top frame's
scratch memo (no counterpart in the code; used to show what re-evaluation
would produce were the stale entry absent). -/
def eraseTopMemo (n : ℕ) (st : EvalSt) : EvalSt :=
  updateTop (fun t => { t with memo := t.memo.filter fun e => decide (e.1 ≠ n) }) st

/-! ## Alpha-equivalence: `alphaEquivalent`, `alphaEquivMemo`,
`alphaEquivCore`, `handleVarsDAG` -/

/-- Ghost observation of one `alphaEquivMemo` entry: the pointer-identity
shortcut fired, the memo was hit, or the pair missed the memo (after which
the core comparison runs).  The trace of these events is a ghost field of
the embedding: it records which branch of the code executed and has no
influence on the computed result. -/
inductive AEvent where
  | shortcut (a b : ℕ)
  | hit (a b : ℕ)
  | miss (a b : ℕ)

deriving DecidableEq

/-- Embedding of `AlphaContext`: the memo table keyed by ordered pairs of
node identities, the `varMapping` table, and the ghost event trace (see
`AEvent`). -/
structure ACtx where
  memo : List ((ℕ × ℕ) × Bool)
  varMap : List (ℕ × ℕ)
  trace : List AEvent

deriving DecidableEq

/-- Cleared context (`fAlphaContext.clear()` at the start of
`alphaEquivalent`). -/
def initACtx : ACtx := ⟨[], [], []⟩

/-- Append a ghost event to the trace, leaving memo and mapping alone. -/
def logEv (e : AEvent) (c : ACtx) : ACtx := ⟨c.memo, c.varMap, c.trace ++ [e]⟩

mutual

/-- Embedding of `alphaEquivMemo`: pointer-identity shortcut, then memo
lookup, then core comparison; on a miss the result is recorded under both
orders only after the core comparison has returned (the code has no
tentative entry).  The fuel argument is a modeling artefact: `none` means
fuel ran out and corresponds to no C++ behaviour. -/
def aem : ℕ → Builder → ACtx → ℕ → ℕ → Option (Bool × ACtx)
  | 0, _, _, _, _ => none
  | f + 1, b, ctx, t1, t2 =>
    if t1 = t2 then some (true, logEv (.shortcut t1 t2) ctx)
    else
      match alook ctx.memo (t1, t2) with
      | some r => some (r, logEv (.hit t1 t2) ctx)
      | none =>
        match aec f b (logEv (.miss t1 t2) ctx) t1 t2 with
        | none => none
        | some (r, ctx2) =>
          some (r, { ctx2 with memo := ains (ains ctx2.memo (t1, t2) r) (t2, t1) r })
termination_by structural fuel _ _ _ _ => fuel

/-- Embedding of `alphaEquivCore`: nodes of different shapes compare
false; `Num` nodes compare their values with the C++ `==` (IEEE equality
`deq`); `Unary`/`Binary` compare the operator and recurse on children with
the short-circuit of `&&`; `Var` pairs go to `handleVarsDAG`.  Identities
outside the table (which cannot arise for interned nodes) compare
false. -/
def aec : ℕ → Builder → ACtx → ℕ → ℕ → Option (Bool × ACtx)
  | 0, _, _, _, _ => none
  | f + 1, b, ctx, t1, t2 =>
    match b.nodes.get? t1, b.nodes.get? t2 with
    | some (.num v1), some (.num v2) => some (deq v1 v2, ctx)
    | some (.unary o1 c1), some (.unary o2 c2) =>
      if o1 = o2 then aem f b ctx c1 c2 else some (false, ctx)
    | some (.binary o1 l1 r1), some (.binary o2 l2 r2) =>
      if o1 = o2 then
        match aem f b ctx l1 l2 with
        | none => none
        | some (false, ctx1) => some (false, ctx1)
        | some (true, ctx1) => aem f b ctx1 r1 r2
      else some (false, ctx)
    | some (.var _), some (.var _) => ahv f b ctx t1 t2
    | _, _ => some (false, ctx)
termination_by structural fuel _ _ _ _ => fuel

/-- Embedding of `handleVarsDAG`: consistency check when `v1` is mapped
and `v2` is in range; `false` on a half-mapped pair; otherwise extend
`varMapping` with `v1 ↦ v2` and compare the definitions (both-undefined
pairs are equivalent, exactly one undefined is not). -/
def ahv : ℕ → Builder → ACtx → ℕ → ℕ → Option (Bool × ACtx)
  | 0, _, _, _, _ => none
  | f + 1, b, ctx, v1, v2 =>
    match alook ctx.varMap v1 with
    | some w =>
      if ctx.varMap.any fun p => decide (p.2 = v2) then some (decide (w = v2), ctx)
      else some (false, ctx)
    | none =>
      if ctx.varMap.any fun p => decide (p.2 = v2) then some (false, ctx)
      else
        match defOf b v1, defOf b v2 with
        | none, none => some (true, { ctx with varMap := ctx.varMap ++ [(v1, v2)] })
        | some _, none => some (false, { ctx with varMap := ctx.varMap ++ [(v1, v2)] })
        | none, some _ => some (false, { ctx with varMap := ctx.varMap ++ [(v1, v2)] })
        | some d1, some d2 => aem f b { ctx with varMap := ctx.varMap ++ [(v1, v2)] } d1 d2
termination_by structural fuel _ _ _ _ => fuel

end

/-- Fuel sufficient for every `alphaEquivMemo` run on builder `b`: three
units per level of the measure `muA`, which is bounded by
`(N + 1) * (2 * N + 2)` on a table of `N` nodes. -/
def alphaFuel (b : Builder) : ℕ :=
  3 * ((b.nodes.length + 1) * (2 * b.nodes.length + 2)) + 3

/-- Embedding of the public `alphaEquivalent`: clear the context and run
`alphaEquivMemo`.  Fuel exhaustion (a modeling artefact that never occurs,
by the totality theorem) is mapped to `false`. -/
def alphaEquivalent (b : Builder) (t1 t2 : ℕ) : Bool :=
  match aem (alphaFuel b) b initACtx t1 t2 with
  | some (r, _) => r
  | none => false

/-- Embedding of `evalInitial` when the interpretation is the same
`TreeAlgebra` (the Term DAG): the code compares the algebra with `this`
and returns the argument tree unchanged. -/
def evalTermDAG (t : ℕ) : ℕ := t

/-- Termination measure for the alpha-equivalence recursion on a builder
with `N` interned nodes: pairs of node identities below `N` never repeat
between two extensions of `varMapping`, and `varMapping` (whose keys are
distinct node identities below `N`) can grow at most `N` times. -/
def muA (b : Builder) (c : ACtx) (t1 t2 : ℕ) : ℕ :=
  (b.nodes.length - c.varMap.length) * (2 * b.nodes.length + 2) + t1 + t2 + 1

/-- Invariant of the alpha context: `varMapping` keys are node identities
of the builder's table, with no duplicates. -/
structure AOK (b : Builder) (c : ACtx) : Prop where
  keysLt : ∀ p ∈ c.varMap, p.1 < b.nodes.length
  keysNodup : (c.varMap.map Prod.fst).Nodup

/-- `varMapping` only ever grows (entries are inserted, never removed). -/
def VExt (c c' : ACtx) : Prop := ∃ tail, c'.varMap = c.varMap ++ tail

/-- Concrete builder with two alpha-equivalent recursive variables:
`x := x + 1` (nodes 1, 2) and `y := y + 1` (nodes 3, 4) sharing the
constant node 0. -/
def bRec : Builder :=
  ⟨[.num (.fin (Q.ofInt 1)), .var 1, .binary .add 1 0, .var 2, .binary .add 3 0],
    [none, some 2, none, some 4, none], 0⟩

/-- Concrete builder like `bRec` but with the variable interned before
the constant, so the roots of the two definitions are the binary nodes 2
and 4: `x := x + 1` (nodes 0, 2) and `y := y + 1` (nodes 3, 4). -/
def bC7 : Builder :=
  ⟨[.var 1, .num (.fin (Q.ofInt 1)), .binary .add 0 1, .var 2, .binary .add 3 1],
    [some 2, none, none, some 4, none], 0⟩

/-- The alpha context produced by comparing nodes 2 and 4 of `bC7`
(`x + 1` against `y + 1`): every memo entry is written in both orders,
`varMapping` holds `x ↦ y`, and the trace records two misses of each
compared pair. -/
def ctxC7 : ACtx :=
  ⟨[((0, 3), true), ((3, 0), true), ((2, 4), true), ((4, 2), true)], [(0, 3)],
    [.miss 2 4, .miss 0 3, .miss 2 4, .miss 0 3, .shortcut 1 1, .shortcut 1 1]⟩

/-! ## Theorems -/

/-! ## Bridging fractions to `ℚ` -/

theorem qden_cast_pos (q : Q) : (0 : ℚ) < (q.dm : ℚ) + 1 := by positivity

theorem qlt_iff (a b : Q) : qlt a b = true ↔ toRat a < toRat b := by
  rw [qlt, decide_eq_true_eq, toRat, toRat,
    div_lt_div_iff (qden_cast_pos a) (qden_cast_pos b), Q.den, Q.den]
  constructor
  · intro h
    exact_mod_cast h
  · intro h
    exact_mod_cast h

theorem qeqB_iff (a b : Q) : qeqB a b = true ↔ toRat a = toRat b := by
  rw [qeqB, decide_eq_true_eq, toRat, toRat,
    div_eq_div_iff (qden_cast_pos a).ne' (qden_cast_pos b).ne', Q.den, Q.den]
  constructor
  · intro h
    exact_mod_cast h
  · intro h
    exact_mod_cast h

theorem qIsZero_iff (a : Q) : qIsZero a = true ↔ toRat a = 0 := by
  rw [qIsZero, decide_eq_true_eq, toRat, div_eq_zero_iff]
  simp [(qden_cast_pos a).ne']

theorem qneg_iff (a : Q) : qneg a = true ↔ toRat a < 0 := by
  rw [qneg, decide_eq_true_eq, toRat, div_lt_iff (qden_cast_pos a)]
  simp

theorem toRat_pos_iff (a : Q) : 0 < toRat a ↔ 0 < a.n := by
  rw [toRat, lt_div_iff (qden_cast_pos a)]
  simp

theorem toRat_ofInt (k : ℤ) : toRat (Q.ofInt k) = (k : ℚ) := by
  simp [toRat, Q.ofInt]

theorem toRat_eps : toRat epsD = 1 / 10000000000 := by
  norm_num [toRat, epsD]

theorem den_prod_cast (a b : Q) :
    (((a.dm + 1) * (b.dm + 1) - 1 : ℕ) : ℚ) + 1 = ((a.dm : ℚ) + 1) * ((b.dm : ℚ) + 1) := by
  have h1 : 1 ≤ (a.dm + 1) * (b.dm + 1) := Nat.one_le_iff_ne_zero.mpr (by positivity)
  rw [Nat.cast_sub h1]
  push_cast
  ring

theorem toRat_qsub (a b : Q) : toRat (qsub a b) = toRat a - toRat b := by
  unfold toRat qsub
  simp only
  rw [den_prod_cast a b, Q.den, Q.den]
  have ha := (qden_cast_pos a).ne'
  have hb := (qden_cast_pos b).ne'
  field_simp
  ring

theorem toRat_qabs (a : Q) : toRat (qabs a) = |toRat a| := by
  unfold toRat qabs
  simp only
  rw [abs_div, abs_of_pos (qden_cast_pos a)]
  push_cast
  rfl

theorem toRat_qdiv_pos {b : Q} (hb : 0 < b.n) (a : Q) :
    toRat (qdiv a b) = toRat a / toRat b := by
  unfold toRat qdiv
  rw [if_neg (by omega : ¬b.n < 0)]
  simp only
  have h1 : 1 ≤ (a.dm + 1) * b.n.natAbs := by
    have : 1 ≤ b.n.natAbs := by omega
    calc 1 = 1 * 1 := by ring
    _ ≤ (a.dm + 1) * b.n.natAbs := Nat.mul_le_mul (by omega) this
  have hcast : (((a.dm + 1) * b.n.natAbs - 1 : ℕ) : ℚ) + 1
      = ((a.dm : ℚ) + 1) * (b.n.natAbs : ℚ) := by
    rw [Nat.cast_sub h1]
    push_cast
    ring
  rw [hcast, Q.den]
  have hna : ((b.n.natAbs : ℕ) : ℚ) = (b.n : ℚ) := by
    rw [Int.cast_natAbs]
    exact_mod_cast abs_of_nonneg hb.le
  rw [hna]
  have hbq : (0 : ℚ) < (b.n : ℚ) := by exact_mod_cast hb
  have ha := (qden_cast_pos a).ne'
  have hb' := (qden_cast_pos b).ne'
  field_simp

/-! ## Properties of `isConverged` -/

theorem blt_fin_fin (p q : Q) : (D.fin p).blt (.fin q) = qlt p q := rfl

theorem qlt_false_iff (a b : Q) : qlt a b = false ↔ ¬toRat a < toRat b := by
  rw [← Bool.not_eq_true, not_iff_not, qlt_iff]

theorem subD_finite {a b : D} {x y : ℚ} (ha : IsFinD a x) (hb : IsFinD b y) :
    IsFinD (subD a b) (x - y) := by
  have hzero : ∀ qa qb : Q, toRat qa = x → toRat qb = y →
      qIsZero (qsub qa qb) = true → x - y = 0 := by
    intro qa qb hqa hqb hz
    rw [← hqa, ← hqb, ← toRat_qsub]
    exact (qIsZero_iff _).mp hz
  have hfin : ∀ qa qb : Q, toRat qa = x → toRat qb = y →
      qIsZero (qsub qa qb) = false → IsFinD (.fin (qsub qa qb)) (x - y) := by
    intro qa qb hqa hqb _
    exact Or.inl ⟨_, rfl, by rw [toRat_qsub, hqa, hqb]⟩
  rcases ha with ⟨qa, rfl, hqa⟩ | ⟨rfl, rfl⟩ <;> rcases hb with ⟨qb, rfl, hqb⟩ | ⟨rfl, rfl⟩ <;>
      simp only [subD, D.finQ] <;> split_ifs with h1 h2
  all_goals
    first
      | exact Or.inr ⟨rfl, hzero _ _ (by assumption) (by assumption) h1⟩
      | exact Or.inr ⟨rfl, hzero _ _ (by first | assumption | exact toRat_ofInt 0)
          (by first | assumption | exact toRat_ofInt 0) h1⟩
      | exact Or.inl ⟨_, rfl, by
          rw [toRat_ofInt]
          exact (hzero _ _ (by first | assumption | exact toRat_ofInt 0)
            (by first | assumption | exact toRat_ofInt 0) h1).symm⟩
      | exact hfin _ _ (by first | assumption | exact toRat_ofInt 0)
          (by first | assumption | exact toRat_ofInt 0) (by simp [h1])

theorem absD_of_finite {a : D} {x : ℚ} (ha : IsFinD a x) :
    ∃ r, absD a = .fin r ∧ toRat r = |x| ∧ 0 ≤ r.n := by
  rcases ha with ⟨q, rfl, hq⟩ | ⟨rfl, rfl⟩
  · exact ⟨qabs q, rfl, by rw [toRat_qabs, hq], abs_nonneg _⟩
  · exact ⟨Q.ofInt 0, rfl, by rw [toRat_ofInt]; norm_num, le_refl 0⟩

theorem absD_subD_finite {a b : D} {x y : ℚ} (ha : IsFinD a x) (hb : IsFinD b y) :
    ∃ r, absD (subD a b) = .fin r ∧ toRat r = |x - y| ∧ 0 ≤ r.n :=
  absD_of_finite (subD_finite ha hb)

theorem absD_finite {a : D} {x : ℚ} (ha : IsFinD a x) :
    ∃ r, absD a = .fin r ∧ toRat r = |x| := by
  rcases ha with ⟨q, rfl, hq⟩ | ⟨rfl, rfl⟩
  · exact ⟨qabs q, rfl, by rw [toRat_qabs, hq]⟩
  · exact ⟨Q.ofInt 0, rfl, by rw [toRat_ofInt]; norm_num⟩

theorem convQ_symm (x y : ℚ) : convQ x y = convQ y x := by
  simp only [convQ]
  rw [abs_sub_comm, max_comm]

theorem sgn_fin_nonneg {p : Q} (hp : 0 ≤ p.n) : (D.fin p).sgn = false := by
  show qneg p = false
  simp [qneg, not_lt.mpr hp]

theorem divD_fin_fin (p m : Q) (hm : qIsZero m = false) :
    divD (.fin p) (.fin m)
      = if qIsZero (qdiv p m) = true
        then (if (D.fin p).sgn ≠ (D.fin m).sgn then D.negZero else .fin (Q.ofInt 0))
        else .fin (qdiv p m) := by
  have hstep : divD (.fin p) (.fin m) = if qIsZero m = true then
      (if qIsZero p = true then D.nan 0
        else if (D.fin p).sgn ≠ (D.fin m).sgn then D.negInf else D.inf)
    else if qIsZero (qdiv p m) = true
      then (if (D.fin p).sgn ≠ (D.fin m).sgn then D.negZero else .fin (Q.ofInt 0))
      else .fin (qdiv p m) := rfl
  rw [hstep, if_neg (by simp [hm])]

theorem isConverged_finite {a b : D} {x y : ℚ} (ha : IsFinD a x) (hb : IsFinD b y) :
    isConverged a b = convQ x y := by
  obtain ⟨qd, hqd, hqdv, hqdn⟩ := absD_subD_finite ha hb
  obtain ⟨qa, hqa, hqav⟩ := absD_finite ha
  obtain ⟨qb, hqb, hqbv⟩ := absD_finite hb
  simp only [isConverged, convQ]
  rw [hqd, hqa, hqb]
  simp only [blt_fin_fin]
  by_cases h1 : |x - y| < epsQ
  · rw [if_pos (by rw [qlt_iff, hqdv, toRat_eps]; exact h1), if_pos h1]
  · rw [if_neg (by rw [qlt_iff, hqdv, toRat_eps]; exact h1), if_neg h1]
    by_cases h0 : 0 < max |x| |y|
    · obtain ⟨qm, hqmEq, hqmv⟩ :
          ∃ qm, (if qlt qa qb = true then D.fin qb else D.fin qa) = .fin qm
            ∧ toRat qm = max |x| |y| := by
        by_cases hm : |x| < |y|
        · refine ⟨qb, ?_, by rw [hqbv, max_eq_right hm.le]⟩
          rw [if_pos (by rw [qlt_iff, hqav, hqbv]; exact hm)]
        · refine ⟨qa, ?_, by rw [hqav, max_eq_left (le_of_not_lt hm)]⟩
          rw [if_neg (by rw [qlt_iff, hqav, hqbv]; exact hm)]
      simp only [hqmEq]
      have hqmn : 0 < qm.n := (toRat_pos_iff qm).mp (by rw [hqmv]; exact h0)
      have hgate : qlt (Q.ofInt 0) qm = true := by
        rw [qlt_iff, toRat_ofInt, hqmv]
        exact_mod_cast h0
      have hmz : qIsZero qm = false := by
        rw [← Bool.not_eq_true, qIsZero_iff, hqmv]
        exact ne_of_gt h0
      have hdr : toRat (qdiv qd qm) = |x - y| / max |x| |y| := by
        rw [toRat_qdiv_pos hqmn, hqdv, hqmv]
      have hsd : (D.fin qd).sgn = false := sgn_fin_nonneg hqdn
      have hsm : (D.fin qm).sgn = false := sgn_fin_nonneg hqmn.le
      rw [divD_fin_fin qd qm hmz]
      by_cases hz : qIsZero (qdiv qd qm) = true
      · have hrz : |x - y| / max |x| |y| = 0 := by
          rw [← hdr]
          exact (qIsZero_iff _).mp hz
        have hql0 : qlt (Q.ofInt 0) epsD = true := by
          rw [qlt_iff, toRat_ofInt, toRat_eps]
          norm_num
        rw [if_pos hz, hsd, hsm]
        simp only [ne_eq, not_true_eq_false, if_false, blt_fin_fin, hql0, hgate,
          Bool.and_self, if_true]
        rw [if_pos ⟨h0, by rw [hrz]; norm_num [epsQ]⟩]
      · rw [if_neg hz]
        simp only [blt_fin_fin]
        by_cases h2 : |x - y| / max |x| |y| < epsQ
        · have hql : qlt (qdiv qd qm) epsD = true := by
            rw [qlt_iff, hdr, toRat_eps]
            exact h2
          simp only [hgate, hql, Bool.and_self, if_true]
          rw [if_pos ⟨h0, h2⟩]
        · have hql : qlt (qdiv qd qm) epsD = false := by
            rw [qlt_false_iff, hdr, toRat_eps]
            exact h2
          simp only [hgate, hql, Bool.and_false, Bool.false_eq_true, if_false]
          rw [if_neg (fun hc => h2 hc.2)]
    · have hmz : max |x| |y| = 0 :=
        le_antisymm (not_lt.mp h0) (le_max_of_le_left (abs_nonneg x))
      have hx0 : x = 0 := by
        have : |x| = 0 := le_antisymm (hmz ▸ le_max_left |x| |y|) (abs_nonneg x)
        exact abs_eq_zero.mp this
      have hy0 : y = 0 := by
        have : |y| = 0 := le_antisymm (hmz ▸ le_max_right |x| |y|) (abs_nonneg y)
        exact abs_eq_zero.mp this
      exact absurd (by rw [hx0, hy0]; norm_num [epsQ]) h1

theorem isConverged_symm_all : ∀ x y : D, isConverged x y = isConverged y x := by
  have hswap : ∀ (a b : D) (p q : ℚ), IsFinD a p → IsFinD b q →
      isConverged a b = isConverged b a := by
    intro a b p q ha hb
    rw [isConverged_finite ha hb, isConverged_finite hb ha, convQ_symm]
  intro x y
  rcases x with q | _ | p | _ | _ <;> rcases y with r | _ | s | _ | _ <;>
    first
      | exact hswap _ _ _ _ (Or.inl ⟨_, rfl, rfl⟩) (Or.inl ⟨_, rfl, rfl⟩)
      | exact hswap _ _ _ _ (Or.inl ⟨_, rfl, rfl⟩) (Or.inr ⟨rfl, rfl⟩)
      | exact hswap _ _ _ _ (Or.inr ⟨rfl, rfl⟩) (Or.inl ⟨_, rfl, rfl⟩)
      | exact hswap _ _ _ _ (Or.inr ⟨rfl, rfl⟩) (Or.inr ⟨rfl, rfl⟩)
      | rfl
      | simp [isConverged, subD, absD, D.blt, D.ext?, Ext.blt, divD]

/-- Claim C9, counterexample.  The claim states that `isConverged(x, x)`
is `true` for every double `x`.  It fails on NaN and on the infinities:
`|x - x|` is NaN there, every IEEE comparison involving NaN is false,
and so both the absolute and the relative tolerance tests fail. -/
theorem isConverged_nan_refl_false :
    isConverged (D.nan 0) (D.nan 0) = false ∧ isConverged D.inf D.inf = false :=
  ⟨rfl, rfl⟩

/-- Claim C9, amended.  `DoubleAlgebra::isConverged` is reflexive on every
finite double (including negative zero) and symmetric on all doubles;
reflexivity fails exactly on NaN and the infinities. -/
theorem isConverged_refl_finite_and_symm :
    (∀ q : Q, isConverged (D.fin q) (D.fin q) = true) ∧
      isConverged D.negZero D.negZero = true ∧
      ∀ x y : D, isConverged x y = isConverged y x := by
  refine ⟨fun q => ?_, ?_, isConverged_symm_all⟩
  · rw [isConverged_finite (Or.inl ⟨q, rfl, rfl⟩) (Or.inl ⟨q, rfl, rfl⟩)]
    simp [convQ]
    norm_num [epsQ]
  · rw [isConverged_finite (a := D.negZero) (b := D.negZero)
      (Or.inr ⟨rfl, rfl⟩) (Or.inr ⟨rfl, rfl⟩)]
    simp [convQ]
    norm_num [epsQ]

/-! ## Basic properties of `treeEqual` and `firstIdx` -/

theorem qeqB_symm (a b : Q) : qeqB a b = qeqB b a := by
  simp [qeqB, eq_comm]

theorem extBeq_symm (x y : Ext) : x.beq y = y.beq x := by
  cases x <;> cases y <;> simp [Ext.beq, qeqB_symm]

theorem extBeq_euclid {x y z : Ext} (hxz : x.beq z = true) (hyz : y.beq z = true) :
    x.beq y = true := by
  cases x <;> cases y <;> cases z <;> simp_all [Ext.beq, qeqB_iff]

theorem deq_symm (a b : D) : deq a b = deq b a := by
  unfold deq
  cases ha : a.ext? <;> cases hb : b.ext? <;> simp [extBeq_symm]

theorem deq_euclid {a b c : D} (hac : deq a c = true) (hbc : deq b c = true) :
    deq a b = true := by
  unfold deq at *
  cases ha : a.ext? <;> cases hb : b.ext? <;> cases hc : c.ext? <;>
    simp_all
  exact extBeq_euclid hac hbc

theorem treeEqual_symm (a b : Node) : treeEqual a b = treeEqual b a := by
  cases a <;> cases b <;> simp [treeEqual, deq_symm, eq_comm, Bool.and_comm]

theorem treeEqual_euclid {a b c : Node} (hac : treeEqual a c = true)
    (hbc : treeEqual b c = true) : treeEqual a b = true := by
  cases a <;> cases b <;> cases c <;> simp_all [treeEqual]
  exact deq_euclid hac hbc

theorem firstIdx_none_iff {p : Node → Bool} {l : List Node} :
    firstIdx p l = none ↔ ∀ n ∈ l, p n = false := by
  induction l with
  | nil => simp [firstIdx]
  | cons a rest ih =>
    by_cases ha : p a <;> simp [firstIdx, ha, ih]

theorem firstIdx_some {p : Node → Bool} {l : List Node} {j : ℕ}
    (h : firstIdx p l = some j) : ∃ n, l.get? j = some n ∧ p n = true := by
  induction l generalizing j with
  | nil => simp [firstIdx] at h
  | cons a rest ih =>
    by_cases ha : p a
    · simp [firstIdx, ha] at h
      exact h ▸ ⟨a, rfl, ha⟩
    · simp [firstIdx, ha] at h
      obtain ⟨k, hk, rfl⟩ := h
      obtain ⟨n, hn, hpn⟩ := ih hk
      exact ⟨n, by simpa using hn, hpn⟩

theorem firstIdx_congr {p q : Node → Bool} {l : List Node}
    (h : ∀ n ∈ l, p n = q n) : firstIdx p l = firstIdx q l := by
  induction l with
  | nil => rfl
  | cons a rest ih =>
    have ha := h a (by simp)
    simp only [firstIdx, ha, ih fun n hn => h n (by simp [hn])]

theorem firstIdx_append_singleton {p : Node → Bool} {l : List Node} {c : Node}
    (h : firstIdx p l = none) :
    firstIdx p (l ++ [c]) = if p c then some l.length else none := by
  induction l with
  | nil => simp [firstIdx]
  | cons a rest ih =>
    cases hpa : p a with
    | true => simp [firstIdx, hpa] at h
    | false =>
      simp only [firstIdx, hpa, Bool.false_eq_true, if_false] at h
      cases hfr : firstIdx p rest with
      | some k => rw [hfr] at h; simp at h
      | none =>
        simp only [List.cons_append, firstIdx, hpa, Bool.false_eq_true, if_false]
        cases hc : p c <;> simp [ih hfr, hc, List.length_cons]

theorem firstIdx_eq_of_unique {p : Node → Bool} {l : List Node} {r : ℕ} {nr : Node}
    (hget : l.get? r = some nr) (hp : p nr = true)
    (huniq : ∀ k nk, l.get? k = some nk → p nk = true → k = r) :
    firstIdx p l = some r := by
  induction l generalizing r with
  | nil => simp at hget
  | cons a rest ih =>
    by_cases ha : p a
    · have : 0 = r := huniq 0 a rfl ha
      subst this
      simp at hget
      simp [firstIdx, ha]
    · cases r with
      | zero => simp_all
      | succ r' =>
        have hgr : rest.get? r' = some nr := by simpa using hget
        have huniq' : ∀ k nk, rest.get? k = some nk → p nk = true → k = r' := by
          intro k nk hk hpk
          have := huniq (k + 1) nk (by simpa using hk) hpk
          omega
        simp [firstIdx, ha, ih hgr huniq']

/-! ## Well-formedness is preserved by the builder API -/

theorem wfb_intern {b : Builder} {cand : Node} (hw : WFB b)
    (hc : nodeChildLt cand b.nodes.length) : WFB (intern b cand).2 := by
  unfold intern
  cases hf : firstIdx (fun n => treeEqual n cand) b.nodes with
  | some j => exact hw
  | none =>
    have hall : ∀ n ∈ b.nodes, treeEqual n cand = false := by
      simpa using firstIdx_none_iff.mp hf
    refine ⟨by simp [hw.len_defs], ?_, ?_, ?_⟩
    · intro i j ni nj hne hi hj
      have hilen : i < b.nodes.length + 1 := by
        have := List.get?_eq_some.mp hi
        simpa using this.1
      have hjlen : j < b.nodes.length + 1 := by
        have := List.get?_eq_some.mp hj
        simpa using this.1
      by_cases hilt : i < b.nodes.length <;> by_cases hjlt : j < b.nodes.length
      · exact hw.pairwise i j ni nj hne (by rwa [List.get?_append hilt] at hi)
          (by rwa [List.get?_append hjlt] at hj)
      · have hj' : j = b.nodes.length := by omega
        subst hj'
        rw [List.get?_concat_length] at hj
        cases hj
        rw [List.get?_append hilt] at hi
        exact hall ni (List.get?_mem hi)
      · have hi' : i = b.nodes.length := by omega
        subst hi'
        rw [List.get?_concat_length] at hi
        cases hi
        rw [List.get?_append hjlt] at hj
        rw [treeEqual_symm]
        exact hall nj (List.get?_mem hj)
      · exact absurd (by omega : i = j) hne
    · intro i n hi
      have hilen : i < b.nodes.length + 1 := by
        have := List.get?_eq_some.mp hi
        simpa using this.1
      by_cases hilt : i < b.nodes.length
      · exact hw.childLt i n (by rwa [List.get?_append hilt] at hi)
      · have hi' : i = b.nodes.length := by omega
        subst hi'
        rw [List.get?_concat_length] at hi
        cases hi
        exact hc
    · intro i d hd
      unfold defOf at hd
      simp only [List.length_append, List.length_singleton]
      by_cases hlt : i < b.defs.length
      · rw [List.get?_append hlt] at hd
        have := hw.defLt i d hd
        omega
      · exfalso
        rcases Nat.lt_or_ge i (b.defs.length + 1) with h1 | h1
        · have h2 : i = b.defs.length := by omega
          subst h2
          rw [List.get?_concat_length] at hd
          simp at hd
        · rw [List.get?_len_le (by simp; omega)] at hd
          simp at hd

theorem good_wf {b : Builder} (hg : Good b) : WFB b := by
  induction hg with
  | empty =>
    refine ⟨rfl, ?_, ?_, ?_⟩
    · intro i j ni nj _ hi _
      simp [emptyBuilder] at hi
    · intro i n hi
      simp [emptyBuilder] at hi
    · intro i d hd
      simp [emptyBuilder, defOf] at hd
  | num d _ ih => exact wfb_intern ih trivial
  | unary op _ hx ih => exact wfb_intern ih hx
  | binary op _ hx hy ih => exact wfb_intern ih ⟨hx, hy⟩
  | varFresh _ ih => exact wfb_intern ⟨ih.len_defs, ih.pairwise, ih.childLt, ih.defLt⟩ trivial
  | varIdx i _ ih => exact wfb_intern ih trivial
  | @dfn b v d i _ hv hd ih =>
    have hvlen : v < b.nodes.length := (List.get?_eq_some.mp hv).1
    refine ⟨by simp [List.length_set, ih.len_defs], ih.pairwise, ih.childLt, ?_⟩
    intro j e hj
    unfold defOf at hj
    simp only at hj
    by_cases hvj : j = v
    · subst hvj
      have hjdefs : j < b.defs.length := by rw [ih.len_defs]; exact hvlen
      rw [List.get?_set_eq_of_lt _ hjdefs] at hj
      simp at hj
      subst hj
      exact hd
    · rw [List.get?_set_ne _ _ fun h => hvj h.symm] at hj
      exact ih.defLt j e hj

/-! ## Interning: uniqueness of matches and idempotence -/

theorem firstIdx_append_of_some {p : Node → Bool} {l : List Node} {m : ℕ}
    (h : firstIdx p l = some m) (l2 : List Node) : firstIdx p (l ++ l2) = some m := by
  induction l generalizing m with
  | nil => simp [firstIdx] at h
  | cons a rest ih =>
    cases hpa : p a with
    | true =>
      simp [firstIdx, hpa] at h
      simp [firstIdx, hpa, h]
    | false =>
      simp only [firstIdx, hpa, Bool.false_eq_true, if_false] at h
      obtain ⟨k, hk, rfl⟩ := Option.map_eq_some'.mp h
      show firstIdx p (a :: (rest ++ l2)) = some (k + 1)
      simp only [firstIdx, hpa, Bool.false_eq_true, if_false, ih hk, Option.map_some']

theorem intern_finds {b : Builder} {cand : Node} {r : ℕ} {nr : Node} (hw : WFB b)
    (hget : b.nodes.get? r = some nr) (heq : treeEqual nr cand = true) :
    intern b cand = (r, b) := by
  have hfi : firstIdx (fun n => treeEqual n cand) b.nodes = some r := by
    refine firstIdx_eq_of_unique hget heq ?_
    intro k nk hk hpk
    by_cases hkr : k = r
    · exact hkr
    · exact absurd (treeEqual_euclid hpk heq) (by simp [hw.pairwise k r nk nr hkr hk hget])
  unfold intern
  rw [hfi]

theorem intern_twice (b : Builder) (cand : Node) (hrefl : treeEqual cand cand = true) :
    intern (intern b cand).2 cand = intern b cand := by
  unfold intern
  cases hf : firstIdx (fun n => treeEqual n cand) b.nodes with
  | some j => simp [hf]
  | none =>
    have happ := firstIdx_append_singleton (c := cand) hf
    rw [hrefl] at happ
    simp [happ]

theorem treeEqual_num_congr {d1 d2 : D} (h : deq d1 d2 = true) (n : Node) :
    treeEqual n (.num d1) = treeEqual n (.num d2) := by
  cases n with
  | num v =>
    show deq v d1 = deq v d2
    cases h2 : deq v d2 with
    | true => rw [deq_euclid h2 h]
    | false =>
      cases h1 : deq v d1 with
      | false => rfl
      | true =>
        have hv2 : deq v d2 = true := deq_euclid h1 ((deq_symm d1 d2) ▸ h)
        rw [hv2] at h2
        cases h2
  | unary o c => rfl
  | binary o l r => rfl
  | var i => rfl

/-- Claim C4, counterexample.  The claim keys `num` on the bit pattern of
the double.  In the code `TreeEqual` compares `Num` values with `==`:
`num(+0.0)` and `num(-0.0)` are interned to the same node although their
bit patterns differ, and two calls `num(NaN)` with the bit-identical NaN
produce two distinct nodes. -/
theorem num_bitpattern_claim_false :
    ((numB (numB emptyBuilder (D.fin (Q.ofInt 0))).2 D.negZero).1 = (numB emptyBuilder (D.fin (Q.ofInt 0))).1)
      ∧ D.negZero ≠ D.fin (Q.ofInt 0)
      ∧ (numB (numB emptyBuilder (D.nan 0)).2 (D.nan 0)).1
          ≠ (numB emptyBuilder (D.nan 0)).1 := by
  decide

/-- Claim C4, amended.  `num(d1)` and `num(d2)` return the same `NodeRef`
iff `d1 == d2` holds under IEEE `double` equality: `+0.0` and `-0.0` are
merged into one node, and a `num(NaN)` call never finds an existing node,
so bit-identical NaN constants are not deduplicated. -/
theorem num_interning_iff (b : Builder) (d1 d2 : D) :
    ((numB (numB b d1).2 d2).1 = (numB b d1).1) ↔ deq d1 d2 = true := by
  unfold numB intern
  cases h12 : deq d1 d2 with
  | true =>
    have hpw : ∀ n ∈ b.nodes, treeEqual n (.num d1) = treeEqual n (.num d2) :=
      fun n _ => treeEqual_num_congr h12 n
    cases hf : firstIdx (fun n => treeEqual n (.num d1)) b.nodes with
    | some j =>
      have hf2 : firstIdx (fun n => treeEqual n (.num d2)) b.nodes = some j := by
        rw [← firstIdx_congr hpw]
        exact hf
      simp [hf2]
    | none =>
      have hf2 : firstIdx (fun n => treeEqual n (.num d2)) b.nodes = none := by
        rw [← firstIdx_congr hpw]
        exact hf
      have happ := firstIdx_append_singleton (c := Node.num d1) hf2
      have hself : treeEqual (Node.num d1) (Node.num d2) = true := h12
      rw [hself] at happ
      simp only [if_true] at happ
      rw [happ]
      simp
  | false =>
    simp only [Bool.false_eq_true, iff_false]
    cases hf1 : firstIdx (fun n => treeEqual n (.num d1)) b.nodes with
    | some j =>
      have hjlt : j < b.nodes.length := by
        obtain ⟨n, hn, _⟩ := firstIdx_some hf1
        exact (List.get?_eq_some.mp hn).1
      cases hf2 : firstIdx (fun n => treeEqual n (.num d2)) b.nodes with
      | some k =>
        simp only
        intro hkj
        obtain ⟨n1, hn1, hp1⟩ := firstIdx_some hf1
        obtain ⟨n2, hn2, hp2⟩ := firstIdx_some hf2
        rw [hkj, hn1] at hn2
        cases hn2
        cases n1 with
        | num v =>
          have hd1 : deq d1 v = true := (deq_symm v d1) ▸ hp1
          have hd2 : deq d2 v = true := (deq_symm v d2) ▸ hp2
          rw [deq_euclid hd1 hd2] at h12
          cases h12
        | unary o c => simp [treeEqual] at hp1
        | binary o l r => simp [treeEqual] at hp1
        | var i => simp [treeEqual] at hp1
      | none =>
        simp only
        omega
    | none =>
      cases hin : firstIdx (fun n => treeEqual n (.num d2)) b.nodes with
      | some m =>
        have hmlt : m < b.nodes.length := by
          obtain ⟨n, hn, _⟩ := firstIdx_some hin
          exact (List.get?_eq_some.mp hn).1
        rw [firstIdx_append_of_some hin]
        simp only
        omega
      | none =>
        have happ := firstIdx_append_singleton (c := Node.num d1) hin
        have hpc : treeEqual (Node.num d1) (Node.num d2) = false := h12
        rw [hpc] at happ
        simp only [Bool.false_eq_true, if_false] at happ
        rw [happ]
        simp

/-- Claim C5, counterexample.  The claim's "same reference iff structurally
equal" fails on NaN constants: `num(NaN)` returns a node (index 0 in a
fresh builder) that is the same reference as itself, yet `TreeEqual`
compares `Num` values with `==`, so the node is not structurally equal
to itself. -/
theorem maximal_sharing_claim_false :
    (numB emptyBuilder (D.nan 0)).1 = 0
      ∧ (numB emptyBuilder (D.nan 0)).2.nodes.get? 0 = some (.num (D.nan 0))
      ∧ treeEqual (.num (D.nan 0)) (.num (D.nan 0)) = false := by
  decide

/-- Claim C5, amended.  For a builder reachable through the API:
distinct interned nodes are never `TreeEqual`; every node that is not a
NaN constant is `TreeEqual` to itself (so the claimed "same reference iff
structurally equal" holds on NaN-free tables); and interning idempotence
holds: repeating any operator call (`add`/`sub`/`mul`/`div`/`mod`,
`abs`, `var(int)`) with the same interned children returns the same
`NodeRef` and leaves the builder unchanged, as does `num(d)` whenever
`d == d` (every non-NaN `d`). -/
theorem maximal_sharing_amended :
    (∀ b : Builder, Good b → ∀ i j ni nj, b.nodes.get? i = some ni →
        b.nodes.get? j = some nj → treeEqual ni nj = true → i = j)
    ∧ (∀ n : Node, isNanNum n = false → treeEqual n n = true)
    ∧ (∀ (b : Builder) (op : Bop) (x y : ℕ), binB (binB b op x y).2 op x y = binB b op x y)
    ∧ (∀ (b : Builder) (op : Uop) (x : ℕ), unB (unB b op x).2 op x = unB b op x)
    ∧ (∀ (b : Builder) (i : ℤ), varIdxB (varIdxB b i).2 i = varIdxB b i)
    ∧ (∀ (b : Builder) (d : D), deq d d = true → numB (numB b d).2 d = numB b d) := by
  refine ⟨?_, ?_, ?_, ?_, ?_, ?_⟩
  · intro b hg i j ni nj hi hj heq
    by_contra hne
    have := (good_wf hg).pairwise i j ni nj hne hi hj
    rw [heq] at this
    cases this
  · intro n hn
    cases n with
    | num v =>
      cases v with
      | fin q => simp [treeEqual, deq, D.ext?, Ext.beq, qeqB]
      | negZero => simp [treeEqual, deq, D.ext?, Ext.beq, qeqB]
      | nan p => simp [isNanNum] at hn
      | inf => simp [treeEqual, deq, D.ext?, Ext.beq]
      | negInf => simp [treeEqual, deq, D.ext?, Ext.beq]
    | unary o c => simp [treeEqual]
    | binary o l r => simp [treeEqual]
    | var i => simp [treeEqual]
  · intro b op x y
    exact intern_twice b _ (by simp [treeEqual])
  · intro b op x
    exact intern_twice b _ (by simp [treeEqual])
  · intro b i
    exact intern_twice b _ (by simp [treeEqual])
  · intro b d hd
    exact intern_twice b _ hd

theorem good_bW : Good bW := by
  have h0 : Good (varIdxB emptyBuilder 1).2 := Good.varIdx 1 Good.empty
  have h1 : Good (numB (varIdxB emptyBuilder 1).2 (D.fin (Q.ofInt 42))).2 := Good.num _ h0
  have h2 := Good.dfn (v := 0) (d := 1) (i := 1) h1 (by decide) (by decide)
  have he : (⟨(numB (varIdxB emptyBuilder 1).2 (D.fin (Q.ofInt 42))).2.nodes,
      (numB (varIdxB emptyBuilder 1).2 (D.fin (Q.ofInt 42))).2.defs.set 0 (some 1),
      (numB (varIdxB emptyBuilder 1).2 (D.fin (Q.ofInt 42))).2.varCounter⟩ : Builder) = bW := by
    decide
  exact he ▸ h2

/-- Witness for the amended claim C5 at a concrete reachable builder and
at a concrete repeated operator call. -/
theorem maximal_sharing_amended_witness :
    (0 : ℕ) = 0 ∧ binB (binB emptyBuilder .add 0 0).2 .add 0 0 = binB emptyBuilder .add 0 0 :=
  ⟨maximal_sharing_amended.1 bW good_bW 0 0 (.var 1) (.var 1) (by decide) (by decide)
      (by decide),
    maximal_sharing_amended.2.2.1 emptyBuilder .add 0 0⟩

/-- Claim C8.  `define(v, body)` returns `NotAVariable` whenever `v` is
any node shape other than `Var` (the guard throws before any mutation, so
no definition is written), and when `v` is a `Var` it writes `body` into
the definition cell of `v` and returns `v` itself. -/
theorem define_spec (b : Builder) (v d : ℕ) (_hv : v < b.nodes.length) :
    ((∃ i, b.nodes.get? v = some (.var i)) →
        defineB b v d = .ok (v, ⟨b.nodes, b.defs.set v (some d), b.varCounter⟩))
    ∧ ((∀ i, b.nodes.get? v ≠ some (.var i)) → defineB b v d = .error .notAVariable) := by
  constructor
  · intro ⟨i, hi⟩
    unfold defineB
    rw [hi]
  · intro hni
    unfold defineB
    cases hn : b.nodes.get? v with
    | none => rfl
    | some n =>
      cases n with
      | num val => rfl
      | unary o c => rfl
      | binary o l r => rfl
      | var i => exact absurd hn (hni i)

/-- Witness for claim C8: both branches at a concrete builder. -/
theorem define_spec_witness :
    defineB bW 0 1 = .ok (0, ⟨bW.nodes, bW.defs.set 0 (some 1), bW.varCounter⟩)
      ∧ defineB bW 1 0 = .error .notAVariable := by
  constructor
  · exact (define_spec bW 0 1 (by decide)).1 ⟨1, by decide⟩
  · refine (define_spec bW 1 0 (by decide)).2 ?_
    intro i h
    simp [bW] at h

/-- Claim C10.  `var()` is fresh only relative to the internal counter:
if `var(i)` was interned earlier and the counter stands at `i - 1`, the
next `var()` call pre-increments the counter to `i`, finds the existing
`Var` node by index (definitions are invisible to `TreeEqual`), and
returns that same node — its node table and definition cells unchanged,
so any definition already attached to the variable is kept. -/
theorem varFresh_returns_existing {b : Builder} {r : ℕ} {i : ℤ}
    (hg : Good b) (hc : b.varCounter + 1 = i) (hr : b.nodes.get? r = some (.var i)) :
    varFreshB b = (r, ⟨b.nodes, b.defs, i⟩) := by
  have hw := good_wf hg
  have hw' : WFB ⟨b.nodes, b.defs, i⟩ := ⟨hw.len_defs, hw.pairwise, hw.childLt, hw.defLt⟩
  show intern ⟨b.nodes, b.defs, b.varCounter + 1⟩ (.var (b.varCounter + 1))
    = (r, ⟨b.nodes, b.defs, i⟩)
  rw [hc]
  exact intern_finds hw' hr (by simp [treeEqual])

/-- Witness for claim C10: on `bW` (counter 0, `var(1)` interned and
defined), `var()` returns node 0 with its definition cell intact. -/
theorem varFresh_returns_existing_witness :
    varFreshB bW = (0, ⟨bW.nodes, bW.defs, 1⟩) :=
  varFresh_returns_existing good_bW (by decide) (by decide)

/-! ## Behaviour of the fixpoint evaluator on the cycle -/

theorem bX_eq : bX = ⟨[.var 1, .num (.fin (Q.ofInt 1)), .binary .add 0 1], [some 2, none, none], 1⟩ := by
  decide

/-- Claim C1.  The claim (and the spec's scenario S5) says evaluating the
fresh-var cycle `v := add(v, num 1)` under `DoubleAlgebra` fails with
`NoConvergence`.  The code instead returns `2.0`: the discovery pass
computes `0 + 1 = 1`, iteration 1 computes `1 + 1 = 2` and caches the
`add` node's value in the frame's scratch memo, and iteration 2 is
served that stale entry, so it reproduces `2`, `isConverged(2, 2)`
holds, and the loop stops after two iterations.  `eval` returns `2.0`
and no exception is thrown; `MAX_ITER` is never approached. -/
theorem eval_fresh_var_cycle_returns_two : evalSemD bX 0 = .ok (D.fin (Q.ofInt 2)) := by
  decide

/-- Claim C2.  The claim says every iteration re-evaluates each member's
definition under the current approximations because the scratch table
retains only entries keyed by members of the SCC.  In the code `clean`
runs only once, before the loop: entries written during an iteration
survive into later iterations.  On `v := add(v, num 1)`:
iteration 1 does not converge and leaves the non-member scratch entry
`add ↦ 2.0`; iteration 2 is served that stale value (so it "converges"
at `2.0`), whereas re-evaluating the definition under the current
approximation `v = 2.0` — the counterfactual with the stale entry
erased — yields `3.0`. -/
theorem iterStep_serves_stale_memo :
    iterX1.map (·.2) = .ok false
      ∧ (topFrame? stX1).bind (fun t => alook t.memo 2) = some (D.fin (Q.ofInt 2))
      ∧ ([0] : List ℕ).contains 2 = false
      ∧ (evalI evalFuelN bX 2 stX1).map (·.1) = .ok (D.fin (Q.ofInt 2))
      ∧ iterX2.map (fun p => (alook p.1.hyp 0, p.2)) = .ok (some (D.fin (Q.ofInt 2)), true)
      ∧ (evalI evalFuelN bX 2 (eraseTopMemo 2 stX1)).map (·.1) = .ok (D.fin (Q.ofInt 3)) := by
  decide

/-! ## Association-list lemmas for the alpha memo -/

theorem alook_map_replace {κ α : Type} [DecidableEq κ] (k : κ) (v : α) :
    ∀ m : List (κ × α), (m.find? fun p => decide (p.1 = k)).isSome = true →
      alook (m.map fun p => if p.1 = k then (k, v) else p) k = some v := by
  intro m
  induction m with
  | nil => intro h; simp [List.find?] at h
  | cons a as ih =>
    intro h
    show alook ((if a.1 = k then (k, v) else a) ::
      as.map fun p => if p.1 = k then (k, v) else p) k = some v
    by_cases ha : a.1 = k
    · rw [if_pos ha]
      unfold alook
      rw [List.find?_cons_of_pos _ (by simp)]
      rfl
    · rw [if_neg ha]
      rw [List.find?_cons_of_neg _ (by simpa using ha)] at h
      unfold alook
      rw [List.find?_cons_of_neg _ (by simpa using ha)]
      exact ih h

theorem alook_map_replace_ne {κ α : Type} [DecidableEq κ] (k k' : κ) (v : α) (hne : k' ≠ k) :
    ∀ m : List (κ × α),
      alook (m.map fun p => if p.1 = k then (k, v) else p) k' = alook m k' := by
  intro m
  induction m with
  | nil => rfl
  | cons a as ih =>
    show alook ((if a.1 = k then (k, v) else a) ::
      as.map fun p => if p.1 = k then (k, v) else p) k' = alook (a :: as) k'
    by_cases ha : a.1 = k
    · rw [if_pos ha]
      unfold alook
      rw [List.find?_cons_of_neg _ (by simpa using Ne.symm hne),
        List.find?_cons_of_neg _ (by simp [ha]; exact Ne.symm hne)]
      exact ih
    · rw [if_neg ha]
      by_cases hb : a.1 = k'
      · unfold alook
        rw [List.find?_cons_of_pos _ (by simpa using hb),
          List.find?_cons_of_pos _ (by simpa using hb)]
      · unfold alook
        rw [List.find?_cons_of_neg _ (by simpa using hb),
          List.find?_cons_of_neg _ (by simpa using hb)]
        exact ih

theorem alook_append_one {κ α : Type} [DecidableEq κ] (k : κ) (v : α) :
    ∀ m : List (κ × α), (m.find? fun p => decide (p.1 = k)) = none →
      alook (m ++ [(k, v)]) k = some v := by
  intro m
  induction m with
  | nil =>
    intro h0
    unfold alook
    rw [List.nil_append, List.find?_cons_of_pos _ (by simp)]
    rfl
  | cons a as ih =>
    intro h
    have hAll := List.find?_eq_none.mp h
    show alook (a :: (as ++ [(k, v)])) k = some v
    unfold alook
    rw [List.find?_cons_of_neg _ (by exact hAll a (List.mem_cons_self a as))]
    exact ih (List.find?_eq_none.mpr fun x hx => hAll x (List.mem_cons_of_mem a hx))

theorem alook_append_one_ne {κ α : Type} [DecidableEq κ] (k k' : κ) (v : α) (hne : k' ≠ k) :
    ∀ m : List (κ × α), alook (m ++ [(k, v)]) k' = alook m k' := by
  intro m
  induction m with
  | nil =>
    unfold alook
    rw [List.nil_append, List.find?_cons_of_neg _ (by simpa using Ne.symm hne)]
  | cons a as ih =>
    show alook (a :: (as ++ [(k, v)])) k' = alook (a :: as) k'
    by_cases hb : a.1 = k'
    · unfold alook
      rw [List.find?_cons_of_pos _ (by simpa using hb),
        List.find?_cons_of_pos _ (by simpa using hb)]
    · unfold alook
      rw [List.find?_cons_of_neg _ (by simpa using hb),
        List.find?_cons_of_neg _ (by simpa using hb)]
      exact ih

theorem alook_ains_self {κ α : Type} [DecidableEq κ] (m : List (κ × α)) (k : κ) (v : α) :
    alook (ains m k v) k = some v := by
  unfold ains
  cases ho : m.find? fun p => decide (p.1 = k) with
  | none => exact alook_append_one k v m ho
  | some q => exact alook_map_replace k v m (by rw [ho]; rfl)

theorem alook_ains_ne {κ α : Type} [DecidableEq κ] (m : List (κ × α)) (k k' : κ) (v : α)
    (hne : k' ≠ k) : alook (ains m k v) k' = alook m k' := by
  unfold ains
  cases ho : m.find? fun p => decide (p.1 = k) with
  | none => exact alook_append_one_ne k k' v hne m
  | some q => exact alook_map_replace_ne k k' v hne m

theorem alook_none_key {κ α : Type} [DecidableEq κ] {m : List (κ × α)} {k : κ}
    (h : alook m k = none) : ∀ p ∈ m, p.1 ≠ k := by
  intro p hp hk
  unfold alook at h
  cases ho : m.find? fun q => decide (q.1 = k) with
  | some q => rw [ho] at h; exact Option.noConfusion h
  | none =>
    have := List.find?_eq_none.mp ho p hp
    simp [hk] at this

theorem nodup_lt_len {N : ℕ} {l : List ℕ} (hn : l.Nodup) (hlt : ∀ x ∈ l, x < N) :
    l.length ≤ N := by
  have h1 : l.toFinset.card = l.length := List.toFinset_card_of_nodup hn
  have h2 : l.toFinset ⊆ Finset.range N :=
    fun x hx => Finset.mem_range.mpr (hlt x (List.mem_toFinset.mp hx))
  have h3 := Finset.card_le_card h2
  rw [Finset.card_range] at h3
  omega

/-! ## Totality of the alpha-equivalence recursion -/

theorem alpha_total_aux : ∀ fuel : ℕ,
    (∀ b c t1 t2, WFB b → AOK b c → t1 < b.nodes.length → t2 < b.nodes.length →
        3 * muA b c t1 t2 + 3 ≤ fuel →
        ∃ r c', aem fuel b c t1 t2 = some (r, c') ∧ VExt c c' ∧ AOK b c')
      ∧ (∀ b c t1 t2, WFB b → AOK b c → t1 < b.nodes.length → t2 < b.nodes.length →
        3 * muA b c t1 t2 + 2 ≤ fuel →
        ∃ r c', aec fuel b c t1 t2 = some (r, c') ∧ VExt c c' ∧ AOK b c')
      ∧ (∀ b c t1 t2, WFB b → AOK b c → t1 < b.nodes.length → t2 < b.nodes.length →
        3 * muA b c t1 t2 + 1 ≤ fuel →
        ∃ r c', ahv fuel b c t1 t2 = some (r, c') ∧ VExt c c' ∧ AOK b c') := by
  intro fuel
  induction fuel using Nat.strong_induction_on with
  | _ fuel IH =>
  refine ⟨?_, ?_, ?_⟩
  · intro b c t1 t2 hw hok h1 h2 hfuel
    cases fuel with
    | zero => exact absurd hfuel (by omega)
    | succ f =>
      by_cases ht : t1 = t2
      · exact ⟨true, logEv (.shortcut t1 t2) c, by rw [aem, if_pos ht],
          ⟨[], (List.append_nil _).symm⟩, ⟨hok.keysLt, hok.keysNodup⟩⟩
      · cases hm : alook c.memo (t1, t2) with
        | some r0 =>
          exact ⟨r0, logEv (.hit t1 t2) c, by rw [aem, if_neg ht, hm],
            ⟨[], (List.append_nil _).symm⟩, ⟨hok.keysLt, hok.keysNodup⟩⟩
        | none =>
          have hbound : 3 * muA b (logEv (.miss t1 t2) c) t1 t2 + 2 ≤ f := by
            show 3 * muA b c t1 t2 + 2 ≤ f
            omega
          obtain ⟨r0, c2, hrun, ⟨tl, htl⟩, hok2⟩ :=
            (IH f (Nat.lt_succ_self f)).2.1 b (logEv (.miss t1 t2) c) t1 t2 hw
              ⟨hok.keysLt, hok.keysNodup⟩ h1 h2 hbound
          exact ⟨r0, { c2 with memo := ains (ains c2.memo (t1, t2) r0) (t2, t1) r0 },
            by rw [aem, if_neg ht, hm, hrun], ⟨tl, htl⟩, ⟨hok2.keysLt, hok2.keysNodup⟩⟩
  · intro b c t1 t2 hw hok h1 h2 hfuel
    cases fuel with
    | zero => exact absurd hfuel (by omega)
    | succ f =>
      cases hn1 : b.nodes.get? t1 with
      | none => exact absurd (List.get?_eq_none.mp hn1) (by omega)
      | some n1 =>
      cases hn2 : b.nodes.get? t2 with
      | none => exact absurd (List.get?_eq_none.mp hn2) (by omega)
      | some n2 =>
      cases n1 <;> cases n2
      all_goals try (refine ⟨false, c, ?_, ⟨[], (List.append_nil _).symm⟩,
        ⟨hok.keysLt, hok.keysNodup⟩⟩; rw [aec, hn1, hn2]; done)
      · rename_i v1 v2
        exact ⟨deq v1 v2, c, by rw [aec, hn1, hn2], ⟨[], (List.append_nil _).symm⟩,
          ⟨hok.keysLt, hok.keysNodup⟩⟩
      · rename_i o1 c1 o2 c2
        have hc1 : c1 < t1 := hw.childLt t1 _ hn1
        have hc2 : c2 < t2 := hw.childLt t2 _ hn2
        by_cases ho : o1 = o2
        · have hbound : 3 * muA b c c1 c2 + 3 ≤ f := by
            simp only [muA] at hfuel ⊢
            set P := (b.nodes.length - c.varMap.length) * (2 * b.nodes.length + 2)
            omega
          obtain ⟨r0, cx, hrun, hext, hokx⟩ :=
            (IH f (Nat.lt_succ_self f)).1 b c c1 c2 hw hok (by omega) (by omega) hbound
          exact ⟨r0, cx, by rw [aec, hn1, hn2]; dsimp only; rw [if_pos ho]; exact hrun,
            hext, hokx⟩
        · exact ⟨false, c, by rw [aec, hn1, hn2]; dsimp only; rw [if_neg ho],
            ⟨[], (List.append_nil _).symm⟩, ⟨hok.keysLt, hok.keysNodup⟩⟩
      · rename_i o1 l1 r1 o2 l2 r2
        have hl1 : l1 < t1 := (hw.childLt t1 _ hn1).1
        have hr1 : r1 < t1 := (hw.childLt t1 _ hn1).2
        have hl2 : l2 < t2 := (hw.childLt t2 _ hn2).1
        have hr2 : r2 < t2 := (hw.childLt t2 _ hn2).2
        by_cases ho : o1 = o2
        · have hboundL : 3 * muA b c l1 l2 + 3 ≤ f := by
            simp only [muA] at hfuel ⊢
            set P := (b.nodes.length - c.varMap.length) * (2 * b.nodes.length + 2)
            omega
          obtain ⟨rl, cL, hrunL, hextL, hokL⟩ :=
            (IH f (Nat.lt_succ_self f)).1 b c l1 l2 hw hok (by omega) (by omega) hboundL
          cases rl with
          | false =>
            exact ⟨false, cL, by rw [aec, hn1, hn2]; dsimp only; rw [if_pos ho, hrunL],
              hextL, hokL⟩
          | true =>
            obtain ⟨tlL, htlL⟩ := hextL
            have hlenL : c.varMap.length ≤ cL.varMap.length := by
              rw [htlL]; simp
            have hboundR : 3 * muA b cL r1 r2 + 3 ≤ f := by
              have hmono : muA b cL r1 r2 ≤ muA b c r1 r2 := by
                simp only [muA]
                have hsub := Nat.sub_le_sub_left hlenL b.nodes.length
                have hmul := Nat.mul_le_mul_right (2 * b.nodes.length + 2) hsub
                exact Nat.add_le_add_right
                  (Nat.add_le_add_right (Nat.add_le_add_right hmul r1) r2) 1
              have hstep : 3 * muA b c r1 r2 + 3 ≤ f := by
                simp only [muA] at hfuel ⊢
                set P := (b.nodes.length - c.varMap.length) * (2 * b.nodes.length + 2)
                omega
              omega
            obtain ⟨rr, cR, hrunR, hextR, hokR⟩ :=
              (IH f (Nat.lt_succ_self f)).1 b cL r1 r2 hw hokL (by omega) (by omega) hboundR
            obtain ⟨tlR, htlR⟩ := hextR
            exact ⟨rr, cR,
              by rw [aec, hn1, hn2]; dsimp only; rw [if_pos ho, hrunL]; exact hrunR,
              ⟨tlL ++ tlR, by rw [htlR, htlL, List.append_assoc]⟩, hokR⟩
        · exact ⟨false, c, by rw [aec, hn1, hn2]; dsimp only; rw [if_neg ho],
            ⟨[], (List.append_nil _).symm⟩, ⟨hok.keysLt, hok.keysNodup⟩⟩
      · rename_i i1 i2
        have hbound : 3 * muA b c t1 t2 + 1 ≤ f := by omega
        obtain ⟨r0, c', hrun, hext, hok'⟩ :=
          (IH f (Nat.lt_succ_self f)).2.2 b c t1 t2 hw hok h1 h2 hbound
        exact ⟨r0, c', by rw [aec, hn1, hn2]; exact hrun, hext, hok'⟩
  · intro b c v1 v2 hw hok h1 h2 hfuel
    cases fuel with
    | zero => exact absurd hfuel (by omega)
    | succ f =>
      cases hm1 : alook c.varMap v1 with
      | some w =>
        cases hr : c.varMap.any fun p => decide (p.2 = v2) with
        | true =>
          exact ⟨decide (w = v2), c, by rw [ahv, hm1]; dsimp only; rw [hr, if_pos rfl],
            ⟨[], (List.append_nil _).symm⟩, ⟨hok.keysLt, hok.keysNodup⟩⟩
        | false =>
          exact ⟨false, c,
            by rw [ahv, hm1]; dsimp only; rw [hr, if_neg Bool.false_ne_true],
            ⟨[], (List.append_nil _).symm⟩, ⟨hok.keysLt, hok.keysNodup⟩⟩
      | none =>
        cases hr : c.varMap.any fun p => decide (p.2 = v2) with
        | true =>
          exact ⟨false, c, by rw [ahv, hm1]; dsimp only; rw [hr, if_pos rfl],
            ⟨[], (List.append_nil _).symm⟩, ⟨hok.keysLt, hok.keysNodup⟩⟩
        | false =>
          have hnotin := alook_none_key hm1
          have hkeysLt' : ∀ p ∈ c.varMap ++ [(v1, v2)], p.1 < b.nodes.length := by
            intro p hp
            rcases List.mem_append.mp hp with hmem | hmem
            · exact hok.keysLt p hmem
            · rw [List.mem_singleton] at hmem
              rw [hmem]; exact h1
          have hkeysNodup' : ((c.varMap ++ [(v1, v2)]).map Prod.fst).Nodup := by
            rw [List.map_append, List.nodup_append]
            refine ⟨hok.keysNodup, List.nodup_singleton v1, ?_⟩
            intro a ha hb
            rw [List.map_singleton, List.mem_singleton] at hb
            obtain ⟨p, hp, hfst⟩ := List.mem_map.mp ha
            exact hnotin p hp (by rw [hfst, hb])
          have hok1 : AOK b (⟨c.memo, c.varMap ++ [(v1, v2)], c.trace⟩ : ACtx) :=
            ⟨hkeysLt', hkeysNodup'⟩
          have hkN : c.varMap.length < b.nodes.length := by
            have hlt : ∀ x ∈ (c.varMap ++ [(v1, v2)]).map Prod.fst, x < b.nodes.length := by
              intro x hx
              obtain ⟨p, hp, hfst⟩ := List.mem_map.mp hx
              rw [← hfst]; exact hkeysLt' p hp
            have hle := nodup_lt_len hkeysNodup' hlt
            rw [List.length_map, List.length_append, List.length_singleton] at hle
            omega
          cases hd1 : defOf b v1 with
          | none =>
            cases hd2 : defOf b v2 with
            | none =>
              exact ⟨true, ⟨c.memo, c.varMap ++ [(v1, v2)], c.trace⟩,
                by rw [ahv, hm1]; dsimp only; rw [hr, if_neg Bool.false_ne_true, hd1, hd2],
                ⟨[(v1, v2)], rfl⟩, hok1⟩
            | some d2 =>
              exact ⟨false, ⟨c.memo, c.varMap ++ [(v1, v2)], c.trace⟩,
                by rw [ahv, hm1]; dsimp only; rw [hr, if_neg Bool.false_ne_true, hd1, hd2],
                ⟨[(v1, v2)], rfl⟩, hok1⟩
          | some d1 =>
            cases hd2 : defOf b v2 with
            | none =>
              exact ⟨false, ⟨c.memo, c.varMap ++ [(v1, v2)], c.trace⟩,
                by rw [ahv, hm1]; dsimp only; rw [hr, if_neg Bool.false_ne_true, hd1, hd2],
                ⟨[(v1, v2)], rfl⟩, hok1⟩
            | some d2 =>
              have hd1N : d1 < b.nodes.length := hw.defLt v1 d1 hd1
              have hd2N : d2 < b.nodes.length := hw.defLt v2 d2 hd2
              have hbound :
                  3 * muA b (⟨c.memo, c.varMap ++ [(v1, v2)], c.trace⟩ : ACtx) d1 d2 + 3
                    ≤ f := by
                show 3 * ((b.nodes.length - (c.varMap ++ [(v1, v2)]).length)
                  * (2 * b.nodes.length + 2) + d1 + d2 + 1) + 3 ≤ f
                rw [List.length_append, List.length_singleton]
                have hfuel' := hfuel
                simp only [muA] at hfuel'
                rw [show b.nodes.length - c.varMap.length
                    = (b.nodes.length - (c.varMap.length + 1)) + 1 from by omega,
                  add_one_mul] at hfuel'
                set P := (b.nodes.length - (c.varMap.length + 1)) * (2 * b.nodes.length + 2)
                omega
              obtain ⟨r0, c', hrun, ⟨tl, htl⟩, hok'⟩ :=
                (IH f (Nat.lt_succ_self f)).1 b ⟨c.memo, c.varMap ++ [(v1, v2)], c.trace⟩
                  d1 d2 hw hok1 hd1N hd2N hbound
              exact ⟨r0, c',
                by rw [ahv, hm1]; dsimp only;
                   rw [hr, if_neg Bool.false_ne_true, hd1, hd2]; exact hrun,
                ⟨(v1, v2) :: tl, by rw [htl]; simp⟩, hok'⟩

theorem good_bRec : Good bRec := by
  have h1 : Good (⟨[.num (.fin (Q.ofInt 1))], [none], 0⟩ : Builder) :=
    Good.num (D.fin (Q.ofInt 1)) Good.empty
  have h2 : Good (⟨[.num (.fin (Q.ofInt 1)), .var 1], [none, none], 0⟩ : Builder) :=
    Good.varIdx 1 h1
  have h3 : Good (⟨[.num (.fin (Q.ofInt 1)), .var 1, .binary .add 1 0],
      [none, none, none], 0⟩ : Builder) :=
    Good.binary .add h2 (by decide) (by decide)
  have h4 : Good (⟨[.num (.fin (Q.ofInt 1)), .var 1, .binary .add 1 0],
      [none, some 2, none], 0⟩ : Builder) :=
    Good.dfn (v := 1) (d := 2) (i := 1) h3 (by decide) (by decide)
  have h5 : Good (⟨[.num (.fin (Q.ofInt 1)), .var 1, .binary .add 1 0, .var 2],
      [none, some 2, none, none], 0⟩ : Builder) :=
    Good.varIdx 2 h4
  have h6 : Good (⟨[.num (.fin (Q.ofInt 1)), .var 1, .binary .add 1 0, .var 2,
      .binary .add 3 0], [none, some 2, none, none, none], 0⟩ : Builder) :=
    Good.binary (x := 3) (y := 0) .add h5 (by decide) (by decide)
  exact Good.dfn (v := 3) (d := 4) (i := 2) h6 (by decide) (by decide)

/-- Claim C3.  When the interpretation is the Term DAG itself,
`evalInitial` returns the argument tree unchanged (pointer identity), and
`alphaEquivalent` then answers `true` through the pointer-identity
shortcut of `alphaEquivMemo`, for every term of every builder —
including terms with cyclic variable definitions. -/
theorem grand_alpha_equivalence (b : Builder) (t : ℕ) :
    alphaEquivalent b t (evalTermDAG t) = true := by
  unfold alphaEquivalent evalTermDAG
  rw [show alphaFuel b
    = (3 * ((b.nodes.length + 1) * (2 * b.nodes.length + 2)) + 2) + 1 from rfl]
  rw [aem, if_pos rfl]

/-- Claim C6 (counterexample to the stated mechanism).  The claim says
every recursive call of `alphaEquivalent` either hits the pointer
shortcut, hits the memo, or consumes a previously unseen pair.  On
`bRec`, comparing the variable nodes 1 and 3 misses the memo twice for
the same pair (1, 3): `alphaEquivMemo` writes the memo only after
`alphaEquivCore` returns, so the recursive visit of (1, 3) through the
variables' definitions finds the memo still empty.  The recursion is
instead broken by the `varMapping` consistency check in
`handleVarsDAG`. -/
theorem alpha_pair_missed_twice :
    (aem (alphaFuel bRec) bRec initACtx 1 3).map
        (fun p => (p.1, (p.2.trace.filter fun e => decide (e = .miss 1 3)).length))
      = some (true, 2) := by decide

/-- Claim C6 (amended).  `alphaEquivalent` is nonetheless a total
function on the nodes of any API-reachable builder: the embedded run
returns a boolean (never exhausts the `alphaFuel` budget).  Termination
is proved by induction on the measure
`(N - |varMapping|) * (2N + 2) + t1 + t2 + 1`: every cycle in the
recursion passes through `handleVarsDAG` on an unmapped variable pair
and strictly grows `varMapping`, whose distinct keys are bounded by the
node count `N` — not by the memo table, which is written too late to
bound recursion. -/
theorem alphaEquivalent_total {b : Builder} (hg : Good b) {t1 t2 : ℕ}
    (h1 : t1 < b.nodes.length) (h2 : t2 < b.nodes.length) :
    ∃ r c', aem (alphaFuel b) b initACtx t1 t2 = some (r, c')
      ∧ alphaEquivalent b t1 t2 = r := by
  have hw := good_wf hg
  have hok : AOK b initACtx := ⟨by intro p hp; simp [initACtx] at hp, by simp [initACtx]⟩
  have hfuel : 3 * muA b initACtx t1 t2 + 3 ≤ alphaFuel b := by
    show 3 * ((b.nodes.length - ([] : List (ℕ × ℕ)).length) * (2 * b.nodes.length + 2)
      + t1 + t2 + 1) + 3 ≤ alphaFuel b
    rw [List.length_nil, Nat.sub_zero]
    unfold alphaFuel
    rw [add_one_mul]
    set P := b.nodes.length * (2 * b.nodes.length + 2)
    omega
  obtain ⟨r, c', hrun, _, _⟩ :=
    (alpha_total_aux (alphaFuel b)).1 b initACtx t1 t2 hw hok h1 h2 hfuel
  refine ⟨r, c', hrun, ?_⟩
  unfold alphaEquivalent
  rw [hrun]

/-- Witness for the amended claim C6 at the concrete recursive builder
`bRec`, comparing the two recursive variables. -/
theorem alphaEquivalent_total_witness :
    ∃ r c', aem (alphaFuel bRec) bRec initACtx 1 3 = some (r, c')
      ∧ alphaEquivalent bRec 1 3 = r :=
  alphaEquivalent_total good_bRec (by decide) (by decide)

/-- Claim C7 (counterexample).  The claim says a pair is tentatively
recorded as `true` in the memo before the core comparison runs, so that
recursion on cycles is broken by a memo hit.  `alphaEquivMemo` records
nothing before `alphaEquivCore` returns: on `bC7`, while the core
comparison of the pair (2, 4) is still in progress, the recursion
reaches (2, 4) again and the memo lookup misses a second time. -/
theorem alpha_no_tentative_memo_entry :
    (aem (alphaFuel bC7) bC7 initACtx 2 4).map
        (fun p => (p.1, (p.2.trace.filter fun e => decide (e = .miss 2 4)).length))
      = some (true, 2) := by decide

/-- Claim C7 (amended).  The second half of the claim holds: whenever a
memo miss for a pair (a, b) of distinct nodes completes, both memo
entries (a, b) and (b, a) hold the computed result.  (No tentative entry
is ever written; cycles are broken by `handleVarsDAG`'s variable
mapping.) -/
theorem aem_writes_both_orders {f : ℕ} {b : Builder} {c : ACtx} {x y : ℕ} {r : Bool}
    {c' : ACtx} (hne : x ≠ y) (hm : alook c.memo (x, y) = none)
    (h : aem (f + 1) b c x y = some (r, c')) :
    alook c'.memo (x, y) = some r ∧ alook c'.memo (y, x) = some r := by
  rw [aem, if_neg hne, hm] at h
  cases hc : aec f b (logEv (.miss x y) c) x y with
  | none => rw [hc] at h; exact Option.noConfusion h
  | some p =>
    obtain ⟨r0, c2⟩ := p
    rw [hc] at h
    replace h : some (r0, { c2 with memo := ains (ains c2.memo (x, y) r0) (y, x) r0 })
        = some (r, c') := h
    rw [Option.some.injEq, Prod.mk.injEq] at h
    obtain ⟨hr, hc2⟩ := h
    subst hr
    subst hc2
    have hxy : (x, y) ≠ (y, x) := fun hp => hne (congrArg Prod.fst hp)
    constructor
    · show alook (ains (ains c2.memo (x, y) r0) (y, x) r0) (x, y) = some r0
      rw [alook_ains_ne _ _ _ _ hxy]
      exact alook_ains_self _ _ _
    · show alook (ains (ains c2.memo (x, y) r0) (y, x) r0) (y, x) = some r0
      exact alook_ains_self _ _ _

/-- Witness for the amended claim C7: the concrete run on `bC7`
comparing nodes 2 and 4 ends with both memo orders set. -/
theorem aem_writes_both_orders_witness :
    alook ctxC7.memo (2, 4) = some true ∧ alook ctxC7.memo (4, 2) = some true :=
  @aem_writes_both_orders 218 bC7 initACtx 2 4 true ctxC7 (by decide) (by decide)
    (by decide)

end Algebra2
